import Mathlib

/-!
Verification of the rank-augmented AVL tree (`src/base/avl.py`) and the
pseudo-random generator (`src/base/random_gen.py`) of the Potion-Trader
repository.

The tree is embedded shallowly: a Python `AVLTreeNode` reference (which is
either `None` or a node object with fields `key`, `item`, `left`, `right`,
`height`, `left_counter`, `right_counter`) becomes the inductive type `Tree`,
whose `lf` constructor stands for `None` and whose `node` constructor carries
the seven fields.  Python mutates nodes in place and signals failure with
exceptions; since every node is owned by exactly one parent (no aliasing
across the tree), in-place mutation is modelled by rebuilding, and a raised
exception is modelled by `Except.error` carrying the tree as it stands after
the exception propagates (Python's in-place mutations performed before the
raise survive the exception, so the error payload is NOT always the input).
The tree object's `self.length` field is threaded explicitly through the
auxiliary functions, mirroring the `self.length += 1` / `-= 1` statements.

`avl.py` inherits from `bst.py` and uses `node.py`; those two files are not
part of the sources, so the handful of inherited members used by the AVL code
(the `AVLTreeNode` constructor's initial field values, `is_leaf`,
`get_successor`, and the public insert/delete wrappers that reassign
`self.root`) are modelled from the specification, each marked
`Modelled from the spec:` at its definition.
-/

namespace PotionTrader

/-- A Python `AVLTreeNode` reference: `lf` is `None`, `node` is an object with
fields `key`, `item`, `left`, `right`, `height`, `left_counter`,
`right_counter` (in that order below).  Keys and items are Python ints;
`height` and the two counters are Python ints as well (they can go negative
or stale, so they are `Int`, not `Nat`). -/
inductive Tree where
  | lf : Tree
  | node (key item : Int) (left right : Tree) (height left_counter right_counter : Int) : Tree
deriving DecidableEq, Repr

namespace Tree

/-- `get_height` from `avl.py`: `current.height` if `current is not None` else 0. -/
def get_height : Tree → Int
  | .lf => 0
  | .node _ _ _ _ h _ _ => h

/-- `get_left_counter` from `avl.py`: `current.left_counter` when `current`
and `current.left` are both non-`None`, else 0. -/
def get_left_counter : Tree → Int
  | .lf => 0
  | .node _ _ l _ _ lc _ => match l with | .lf => 0 | .node _ _ _ _ _ _ _ => lc

/-- `get_right_counter` from `avl.py`: `current.right_counter` when `current`
and `current.right` are both non-`None`, else 0. -/
def get_right_counter : Tree → Int
  | .lf => 0
  | .node _ _ _ r _ _ rc => match r with | .lf => 0 | .node _ _ _ _ _ _ _ => rc

/-- `get_total_counter` from `avl.py`. -/
def get_total_counter (t : Tree) : Int :=
  match t with
  | .lf => 0
  | .node _ _ _ _ _ _ _ => get_left_counter t + get_right_counter t

/-- `get_balance` from `avl.py`: `get_height(current.right) - get_height(current.left)`,
0 for `None`. -/
def get_balance : Tree → Int
  | .lf => 0
  | .node _ _ l r _ _ _ => get_height r - get_height l

/-- `update_height` from `avl.py` (no-op on `None`). -/
def update_height : Tree → Tree
  | .lf => .lf
  | .node k i l r _ lc rc => .node k i l r (max (get_height l) (get_height r) + 1) lc rc

/-- `update_counter` from `avl.py`: recomputes `right_counter` then
`left_counter` from the children's getters, but only for a child that is
present — an absent child leaves the corresponding stored counter untouched.
The two updates are independent (each reads only the child), so they are
performed simultaneously here. -/
def update_counter : Tree → Tree
  | .lf => .lf
  | .node k i l r h lc rc =>
      .node k i l r h
        (match l with | .lf => lc | .node _ _ _ _ _ _ _ => get_total_counter l + 1)
        (match r with | .lf => rc | .node _ _ _ _ _ _ _ => get_total_counter r + 1)

/-- `left_rotate` from `avl.py`.  When `current.right is None` the Python
function falls off the end and returns `None`, which is `lf` here.  The
function is never called on `None` itself in the source; that case is mapped
to `lf` as well. -/
def left_rotate : Tree → Tree
  | .lf => .lf
  | .node k i l r h lc rc =>
      match r with
      | .lf => .lf
      | .node ck ci cl cr ch clc crc =>
          -- current.right, child.left = child.left, current
          let current := update_counter (update_height (.node k i l cl h lc rc))
          update_counter (update_height (.node ck ci current cr ch clc crc))

/-- `right_rotate` from `avl.py` (mirror of `left_rotate`). -/
def right_rotate : Tree → Tree
  | .lf => .lf
  | .node k i l r h lc rc =>
      match l with
      | .lf => .lf
      | .node ck ci cl cr ch clc crc =>
          -- current.left, child.right = child.right, current
          let current := update_counter (update_height (.node k i cr r h lc rc))
          update_counter (update_height (.node ck ci cl current ch clc crc))

/-- `rebalance` from `avl.py`.  In the `get_balance >= 2` branch with an
absent right child, Python would raise `AttributeError` on `child.left`;
that (unreachable during real rebalancing, see the safety theorem) case is
mapped to `lf`.  Likewise mirrored. -/
def rebalance (current : Tree) : Tree :=
  if get_balance current ≥ 2 then
    match current with
    | .lf => .lf   -- unreachable: get_balance .lf = 0
    | .node k i l r h lc rc =>
        match r with
        | .lf => .lf   -- Python: AttributeError on child.left
        | .node ck ci cl cr ch clc crc =>
            if get_height cl > get_height cr then
              left_rotate (.node k i l (right_rotate (.node ck ci cl cr ch clc crc)) h lc rc)
            else
              left_rotate current
  else if get_balance current ≤ -2 then
    match current with
    | .lf => .lf   -- unreachable: get_balance .lf = 0
    | .node k i l r h lc rc =>
        match l with
        | .lf => .lf   -- Python: AttributeError on child.right
        | .node ck ci cl cr ch clc crc =>
            if get_height cr > get_height cl then
              right_rotate (.node k i (left_rotate (.node ck ci cl cr ch clc crc)) r h lc rc)
            else
              right_rotate current
  else
    current

/-- `insert_aux` from `avl.py`.  The extra `len` argument threads
`self.length`.  Success returns the new subtree root and length; an error is
the raised `ValueError('Inserting duplicate item')`, whose payload is the
subtree as the exception leaves it (insert mutates nothing on the search path
before raising, so it is provably the unchanged input — but that is a theorem
below, not baked in).  A freshly created `AVLTreeNode(key, item)` is
`Modelled from the spec:` `node.py` is absent; per the spec a new leaf has
height 1 and both counts 0. -/
def insert_aux (current : Tree) (key item len : Int) : Except (Tree × Int) (Tree × Int) :=
  match current with
  | .lf =>
      let fresh : Tree := .node key item .lf .lf 1 0 0
      .ok (rebalance (update_counter (update_height fresh)), len + 1)
  | .node k i l r h lc rc =>
      if key < k then
        match insert_aux l key item len with
        | .error (l', len') => .error (.node k i l' r h lc rc, len')
        | .ok (l', len') =>
            .ok (rebalance (update_counter (update_height (.node k i l' r h lc rc))), len')
      else if k < key then
        match insert_aux r key item len with
        | .error (r', len') => .error (.node k i l r' h lc rc, len')
        | .ok (r', len') =>
            .ok (rebalance (update_counter (update_height (.node k i l r' h lc rc))), len')
      else
        .error (current, len)   -- raise ValueError('Inserting duplicate item')

/-- Leftmost node of a subtree; `lf` for an empty subtree.
Modelled from the spec: `get_successor` lives in the absent `bst.py`; the
spec defines the successor used by delete as "the leftmost node of the right
subtree". -/
def leftmost : Tree → Tree
  | .lf => .lf
  | .node k i l r h lc rc =>
      match l with
      | .lf => .node k i l r h lc rc
      | .node _ _ _ _ _ _ _ => leftmost l

/-- Key field of a node (0 for `lf`, never used on `lf` in the proofs). -/
def key : Tree → Int
  | .lf => 0
  | .node k _ _ _ _ _ _ => k

/-- Item field of a node (0 for `lf`). -/
def item : Tree → Int
  | .lf => 0
  | .node _ i _ _ _ _ _ => i

/-- `delete_aux` from `avl.py`, with `self.length` threaded as in
`insert_aux`.  Crucially, in the `key < current.key` branch Python executes
`current.left_counter -= 1` BEFORE the recursive call, and that in-place
mutation survives the `ValueError('Deleting non-existent item')` raised
deeper when the key is absent — so the error payload here carries the
decremented counter.  The leaf/one-child tests mirror `is_leaf` /
`current.left is None` / `current.right is None` (`is_leaf`, from the absent
`bst.py`, is `Modelled from the spec:` a node with no children).  The
successor is `leftmost` of the right child (see `leftmost`). -/
def delete_aux (current : Tree) (key len : Int) : Except (Tree × Int) (Tree × Int) :=
  match current with
  | .lf => .error (.lf, len)   -- raise ValueError('Deleting non-existent item')
  | .node k i l r h lc rc =>
      if key < k then
        match delete_aux l key len with
        | .error (l', len') => .error (.node k i l' r h (lc - 1) rc, len')
        | .ok (l', len') =>
            .ok (rebalance (update_counter (update_height (.node k i l' r h (lc - 1) rc))), len')
      else if k < key then
        match delete_aux r key len with
        | .error (r', len') => .error (.node k i l r' h lc (rc - 1), len')
        | .ok (r', len') =>
            .ok (rebalance (update_counter (update_height (.node k i l r' h lc (rc - 1)))), len')
      else
        match l, r with
        | .lf, .lf => .ok (.lf, len - 1)             -- is_leaf: remove outright
        | .lf, .node _ _ _ _ _ _ _ => .ok (r, len - 1)   -- left absent: hoist right child
        | .node _ _ _ _ _ _ _, .lf => .ok (l, len - 1)   -- right absent: hoist left child
        | .node _ _ _ _ _ _ _, .node _ _ _ _ _ _ _ =>
            let succ := leftmost r
            match delete_aux r succ.key len with
            | .error (r', len') => .error (.node succ.key succ.item l r' h lc rc, len')
            | .ok (r', len') =>
                .ok (rebalance (update_counter (update_height
                      (.node succ.key succ.item l r' h lc rc))), len')
termination_by structural current

/-- `kth_largest_helper` from `avl.py`.  The recursion is guarded exactly as
in the source: it only descends into a present child, otherwise returns the
current node.  Called on `None` (`lf`) with `k = 1` Python returns `None`
(here `lf`); with any other `k` Python raises `AttributeError` — those junk
cases are mapped to `lf` and never arise in the theorems.  Note the left
descent subtracts the STORED `root.right_counter` field, while the rank test
uses `get_right_counter` (0 for an absent right child). -/
def kth_largest_helper (root : Tree) (k : Int) : Tree :=
  match root with
  | .lf => if k = get_right_counter .lf + 1 then .lf else .lf
  | .node nk ni l r h lc rc =>
      let cur : Tree := .node nk ni l r h lc rc
      if k = get_right_counter cur + 1 then cur
      else if k < get_right_counter cur + 1 then
        match r with
        | .lf => cur
        | .node _ _ _ _ _ _ _ => kth_largest_helper r k
      else
        match l with
        | .lf => cur
        | .node _ _ _ _ _ _ _ => kth_largest_helper l (k - rc - 1)

end Tree

/-- The `AVLTree` object: its `root` reference and its `length` field
(`BinarySearchTree.__init__` sets `root = None`, `length = 0`). -/
structure AVLTree where
  root : Tree
  length : Int
deriving DecidableEq, Repr

/-- The empty tree produced by `AVLTree()`. -/
def AVLTree.empty : AVLTree := ⟨.lf, 0⟩

/-- Public insert.  Modelled from the spec: the wrapper lives in the absent
`bst.py`; per the spec it runs the recursive insert against the root and
reassigns the root ("Returns the (possibly new) subtree root to the caller at
each level so parent links stay correct").  On an exception the root
reference still points at the (possibly mutated in place) old root object,
which is exactly the error payload of `insert_aux`. -/
def AVLTree.insert (t : AVLTree) (key item : Int) : Except AVLTree AVLTree :=
  match Tree.insert_aux t.root key item t.length with
  | .ok (r, n) => .ok ⟨r, n⟩
  | .error (r, n) => .error ⟨r, n⟩

/-- Public delete.  Modelled from the spec: wrapper from the absent
`bst.py`, same shape as `AVLTree.insert`. -/
def AVLTree.delete (t : AVLTree) (key : Int) : Except AVLTree AVLTree :=
  match Tree.delete_aux t.root key t.length with
  | .ok (r, n) => .ok ⟨r, n⟩
  | .error (r, n) => .error ⟨r, n⟩

/-- `kth_largest` from `avl.py`: runs the helper on `self.root`. -/
def AVLTree.kth_largest (t : AVLTree) (k : Int) : Tree :=
  Tree.kth_largest_helper t.root k

/-! ## Specification-side measures and invariants -/

namespace Tree

/-- True number of nodes in a subtree. -/
def size : Tree → Nat
  | .lf => 0
  | .node _ _ l r _ _ _ => size l + size r + 1

/-- True height of a subtree: 0 for an absent subtree, 1 + max of the
children's heights otherwise (the spec's recursive formula). -/
def real_height : Tree → Int
  | .lf => 0
  | .node _ _ l r _ _ _ => max (real_height l) (real_height r) + 1

/-- In-order key sequence. -/
def keys : Tree → List Int
  | .lf => []
  | .node k _ l r _ _ _ => keys l ++ k :: keys r

/-- Every stored `height` field equals the true height of its node's subtree. -/
def heights_ok : Tree → Bool
  | .lf => true
  | .node _ _ l r h _ _ =>
      (h == max (real_height l) (real_height r) + 1) && heights_ok l && heights_ok r

/-- Effective counter correctness: whenever a child is present, the stored
counter for that side equals the true size of that child's subtree.  (When a
child is absent the getters return 0 regardless of the stored field, which
may be stale.) -/
def counters_ok : Tree → Bool
  | .lf => true
  | .node _ _ l r _ lc rc =>
      (match l with | .lf => true | .node _ _ _ _ _ _ _ => lc == (size l : Int)) &&
      (match r with | .lf => true | .node _ _ _ _ _ _ _ => rc == (size r : Int)) &&
      counters_ok l && counters_ok r

/-- Exact stored-counter correctness as the spec words it: the stored counter
is the true subtree size on that side, in particular 0 when the child is
absent. -/
def counters_exact : Tree → Bool
  | .lf => true
  | .node _ _ l r _ lc rc =>
      (lc == (size l : Int)) && (rc == (size r : Int)) &&
      counters_exact l && counters_exact r

/-- AVL balance at every node, in terms of true heights. -/
def balanced : Tree → Bool
  | .lf => true
  | .node _ _ l r _ _ _ =>
      (real_height r - real_height l ≤ 1 && real_height l - real_height r ≤ 1 : Bool)
        && balanced l && balanced r

/-- Strictly increasing in-order keys. -/
def sorted_keys (t : Tree) : Prop := (keys t).Pairwise (· < ·)

instance (t : Tree) : Decidable (sorted_keys t) := by
  unfold sorted_keys; infer_instance

end Tree

/-- The full data-structure invariant of a tree object. -/
def Invariant (t : AVLTree) : Prop :=
  t.root.heights_ok = true ∧ t.root.counters_ok = true ∧ t.root.balanced = true ∧
  t.root.sorted_keys ∧ t.length = (t.root.size : Int)

/-- States reachable from the empty tree by successful public operations. -/
inductive Reachable : AVLTree → Prop where
  | empty : Reachable AVLTree.empty
  | insert_step {t t' : AVLTree} {k i : Int} :
      Reachable t → t.insert k i = .ok t' → Reachable t'
  | delete_step {t t' : AVLTree} {k : Int} :
      Reachable t → t.delete k = .ok t' → Reachable t'

namespace Tree

/-- Left child of a node (`lf` for `lf`); spec-side accessor used to state
how `rebalance` inspects `child.left`. -/
def left_of : Tree → Tree
  | .lf => .lf
  | .node _ _ l _ _ _ _ => l

/-- Right child of a node (`lf` for `lf`). -/
def right_of : Tree → Tree
  | .lf => .lf
  | .node _ _ _ r _ _ _ => r

/-- The order-statistic descent exactly as the specification words it: with
r = right_count(current) + 1 (`get_right_counter`, 0 for an absent right
child), return current when k = r, recurse right with the same k when k < r,
recurse left with adjusted rank k − r when k > r, and return current when the
required child is absent.  This is a second definition following the spec's
words, to be compared with the source's `kth_largest_helper` (which subtracts
the raw stored `right_counter` instead of r). -/
def kth_rank_rule (root : Tree) (k : Int) : Tree :=
  match root with
  | .lf => .lf
  | .node nk ni l r h lc rc =>
      let cur : Tree := .node nk ni l r h lc rc
      if k = get_right_counter cur + 1 then cur
      else if k < get_right_counter cur + 1 then
        match r with
        | .lf => cur
        | .node _ _ _ _ _ _ _ => kth_rank_rule r k
      else
        match l with
        | .lf => cur
        | .node _ _ _ _ _ _ _ => kth_rank_rule l (k - (get_right_counter cur + 1))

end Tree

/-! ## Concrete trees used in the counterexamples and witnesses

`exTree1`, `exTree2`, `exTree3` are the states after inserting keys 1, 2, 3
(all with item 0) in that order into the empty tree; each equality is proved
by evaluation below.  Note `exTree3`: the rotation at the root left the node
with key 1 holding the stale stored `right_counter = 2` although its right
child is absent. -/

def exTree1 : AVLTree := ⟨.node 1 0 .lf .lf 1 0 0, 1⟩

def exTree2 : AVLTree := ⟨.node 1 0 .lf (.node 2 0 .lf .lf 1 0 0) 2 0 1, 2⟩

def exTree3 : AVLTree :=
  ⟨.node 2 0 (.node 1 0 .lf .lf 1 0 2) (.node 3 0 .lf .lf 1 0 0) 2 1 1, 3⟩

/-- The state `delete 4` leaves behind on `exTree3`: the raised key-not-found
error has already decremented `right_counter` on both nodes of the search
path (root: 1 → 0; node 3: 0 → −1). -/
def exTree3bad : AVLTree :=
  ⟨.node 2 0 (.node 1 0 .lf .lf 1 0 2) (.node 3 0 .lf .lf 1 0 (-1)) 2 1 0, 3⟩

/-- A tree whose node 10 stores a stale `right_counter = 1` while its right
child is absent: the source descent and the spec's rank rule visibly differ
on it (rank 3). -/
def staleTree : Tree :=
  .node 10 0 (.node 6 0 (.node 5 0 .lf .lf 1 0 0) .lf 2 1 0) .lf 3 2 1

/-- The keys of `exTree3` with exact stored counters everywhere. -/
def exactTree : Tree :=
  .node 2 0 (.node 1 0 .lf .lf 1 0 0) (.node 3 0 .lf .lf 1 0 0) 2 1 1

namespace RandomGen

/-- One step of the `lcg` generator from `random_gen.py` with the constructor
arguments used by `RandomGen`: modulus 2^32, a = 134775813, c = 1.  The
generator's state is its last emitted value; `RandomGen(seed)` starts it at
`seed`. -/
def lcg_next (s : Nat) : Nat := (134775813 * s + 1) % (2 ^ 32)

/-- The top 16 bits of a 32-bit number: `'{0:032b}'.format(num)[:16]`. -/
def top16 (num : Nat) : Nat := num / 2 ^ 16

/-- Whether 3 or more of the numbers have bit `i` (counted from the least
significant bit of their top-16-bit halves) set; string position `bit` in the
source corresponds to `i = 15 - bit`. -/
def bit_vote (nums : List Nat) (i : Nat) : Bool :=
  3 ≤ (nums.filter (fun n => top16 n / 2 ^ i % 2 = 1)).length

/-- The number assembled from the majority-voted bits (`int(res, 2)` in the
source: position `bit` of the string has weight `2 ^ (15 - bit)`, so summing
`2 ^ i` over voted `i` is the same number). -/
def majority16 (nums : List Nat) : Nat :=
  (List.range 16).foldl (fun acc i => acc + if bit_vote nums i then 2 ^ i else 0) 0

/-- `randint` from `random_gen.py`: raises for `k = 0`, otherwise draws the
next five generator values, majority-votes their top 16 bits and returns
`res % k + 1` together with the new generator state.  For the `k > 0` of the
claim (and `k = 0`) Lean's `%` on `Int` agrees with Python's; only negative
`k`, outside the claim, would differ. -/
def randint (s : Nat) (k : Int) : Except Unit (Int × Nat) :=
  if k = 0 then .error ()   -- raise ValueError("k can only be greater or equal to 1")
  else
    let n1 := lcg_next s
    let n2 := lcg_next n1
    let n3 := lcg_next n2
    let n4 := lcg_next n3
    let n5 := lcg_next n4
    .ok ((majority16 [n1, n2, n3, n4, n5] : Int) % k + 1, n5)

end RandomGen


namespace Tree

/-! ## Basic lemmas about the measures and predicates -/

theorem real_height_nonneg : ∀ t : Tree, 0 ≤ real_height t
  | .lf => le_refl 0
  | .node _ _ l r _ _ _ => by
      have := real_height_nonneg l
      simp only [real_height]; omega

theorem real_height_eq_zero {t : Tree} (h : real_height t = 0) : t = .lf := by
  cases t with
  | lf => rfl
  | node k i l r hh lc rc =>
      exfalso
      have hl := real_height_nonneg l
      have hr := real_height_nonneg r
      simp only [real_height] at h
      omega

theorem size_eq_keys_length : ∀ t : Tree, size t = (keys t).length
  | .lf => rfl
  | .node _ _ l r _ _ _ => by
      simp only [size, keys, List.length_append, List.length_cons,
        size_eq_keys_length l, size_eq_keys_length r]
      omega

theorem heights_ok_node {k i : Int} {l r : Tree} {h lc rc : Int} :
    heights_ok (.node k i l r h lc rc) = true ↔
      h = max (real_height l) (real_height r) + 1 ∧
      heights_ok l = true ∧ heights_ok r = true := by
  simp only [heights_ok, Bool.and_eq_true, beq_iff_eq]
  tauto

theorem balanced_node {k i : Int} {l r : Tree} {h lc rc : Int} :
    balanced (.node k i l r h lc rc) = true ↔
      (real_height r - real_height l ≤ 1 ∧ real_height l - real_height r ≤ 1) ∧
      balanced l = true ∧ balanced r = true := by
  simp only [balanced, Bool.and_eq_true, decide_eq_true_eq]
  tauto

theorem counters_ok_node {k i : Int} {l r : Tree} {h lc rc : Int} :
    counters_ok (.node k i l r h lc rc) = true ↔
      (l = .lf ∨ lc = (size l : Int)) ∧ (r = .lf ∨ rc = (size r : Int)) ∧
      counters_ok l = true ∧ counters_ok r = true := by
  cases l <;> cases r <;>
    simp only [counters_ok, Bool.and_eq_true, beq_iff_eq] <;>
    constructor <;> intro hh <;> simp_all

theorem counters_exact_node {k i : Int} {l r : Tree} {h lc rc : Int} :
    counters_exact (.node k i l r h lc rc) = true ↔
      lc = (size l : Int) ∧ rc = (size r : Int) ∧
      counters_exact l = true ∧ counters_exact r = true := by
  simp only [counters_exact, Bool.and_eq_true, beq_iff_eq]
  tauto

theorem sorted_keys_node {k i : Int} {l r : Tree} {h lc rc : Int} :
    sorted_keys (.node k i l r h lc rc) ↔
      sorted_keys l ∧ sorted_keys r ∧
      (∀ x ∈ keys l, x < k) ∧ (∀ y ∈ keys r, k < y) := by
  simp only [sorted_keys, keys, List.pairwise_append, List.pairwise_cons,
    List.mem_cons]
  constructor
  · rintro ⟨pl, ⟨hk, pr⟩, cross⟩
    exact ⟨pl, pr, fun x hx => cross x hx k (Or.inl rfl), hk⟩
  · rintro ⟨pl, pr, hlk, hkr⟩
    refine ⟨pl, ⟨hkr, pr⟩, ?_⟩
    rintro x hx y (rfl | hy)
    · exact hlk x hx
    · exact lt_trans (hlk x hx) (hkr y hy)

/-! ## Getter lemmas under the invariants -/

theorem get_height_eq {t : Tree} (h : heights_ok t = true) :
    get_height t = real_height t := by
  cases t with
  | lf => rfl
  | node k i l r hh lc rc =>
      rcases heights_ok_node.mp h with ⟨hh', _, _⟩
      simpa [get_height, real_height] using hh'

theorem get_left_counter_eq {k i : Int} {l r : Tree} {h lc rc : Int}
    (hc : counters_ok (.node k i l r h lc rc) = true) :
    get_left_counter (.node k i l r h lc rc) = (size l : Int) := by
  rcases counters_ok_node.mp hc with ⟨hl, _, _, _⟩
  cases l with
  | lf => simp [get_left_counter, size]
  | node _ _ _ _ _ _ _ =>
      rcases hl with hl | hl
      · exact absurd hl (by simp)
      · simpa [get_left_counter] using hl

theorem get_right_counter_eq {k i : Int} {l r : Tree} {h lc rc : Int}
    (hc : counters_ok (.node k i l r h lc rc) = true) :
    get_right_counter (.node k i l r h lc rc) = (size r : Int) := by
  rcases counters_ok_node.mp hc with ⟨_, hr, _, _⟩
  cases r with
  | lf => simp [get_right_counter, size]
  | node _ _ _ _ _ _ _ =>
      rcases hr with hr | hr
      · exact absurd hr (by simp)
      · simpa [get_right_counter] using hr

theorem get_total_counter_eq {t : Tree} (hc : counters_ok t = true) (ht : t ≠ .lf) :
    get_total_counter t + 1 = (size t : Int) := by
  cases t with
  | lf => exact absurd rfl ht
  | node k i l r h lc rc =>
      rcases counters_ok_node.mp hc with ⟨_, _, cl, cr⟩
      simp only [get_total_counter, get_left_counter_eq hc, get_right_counter_eq hc, size]
      push_cast
      omega

theorem get_balance_eq {k i : Int} {l r : Tree} {h lc rc : Int}
    (hl : heights_ok l = true) (hr : heights_ok r = true) :
    get_balance (.node k i l r h lc rc) = real_height r - real_height l := by
  simp [get_balance, get_height_eq hl, get_height_eq hr]

/-! ## The `update_height` / `update_counter` fix-up pair -/

theorem fixup_shape (k i : Int) (l r : Tree) (h lc rc : Int) :
    update_counter (update_height (.node k i l r h lc rc)) =
      .node k i l r (max (get_height l) (get_height r) + 1)
        (match l with | .lf => lc | .node _ _ _ _ _ _ _ => get_total_counter l + 1)
        (match r with | .lf => rc | .node _ _ _ _ _ _ _ => get_total_counter r + 1) := rfl

theorem fixup_eq (k i : Int) (l r : Tree) (h lc rc : Int)
    (hhl : heights_ok l = true) (hhr : heights_ok r = true)
    (hcl : counters_ok l = true) (hcr : counters_ok r = true) :
    update_counter (update_height (.node k i l r h lc rc)) =
      .node k i l r (max (real_height l) (real_height r) + 1)
        (match l with | .lf => lc | .node _ _ _ _ _ _ _ => (size l : Int))
        (match r with | .lf => rc | .node _ _ _ _ _ _ _ => (size r : Int)) := by
  rw [fixup_shape, get_height_eq hhl, get_height_eq hhr]
  cases l with
  | lf => cases r with
    | lf => rfl
    | node _ _ _ _ _ _ _ => rw [get_total_counter_eq hcr (by simp)]
  | node _ _ _ _ _ _ _ => cases r with
    | lf => rw [get_total_counter_eq hcl (by simp)]
    | node _ _ _ _ _ _ _ => rw [get_total_counter_eq hcl (by simp), get_total_counter_eq hcr (by simp)]

theorem fixup_heights_ok {k i : Int} {l r : Tree} {h lc rc : Int}
    (hhl : heights_ok l = true) (hhr : heights_ok r = true)
    (hcl : counters_ok l = true) (hcr : counters_ok r = true) :
    heights_ok (update_counter (update_height (.node k i l r h lc rc))) = true := by
  rw [fixup_eq k i l r h lc rc hhl hhr hcl hcr]
  exact heights_ok_node.mpr ⟨rfl, hhl, hhr⟩

theorem fixup_counters_ok {k i : Int} {l r : Tree} {h lc rc : Int}
    (hhl : heights_ok l = true) (hhr : heights_ok r = true)
    (hcl : counters_ok l = true) (hcr : counters_ok r = true) :
    counters_ok (update_counter (update_height (.node k i l r h lc rc))) = true := by
  rw [fixup_eq k i l r h lc rc hhl hhr hcl hcr]
  refine counters_ok_node.mpr ⟨?_, ?_, hcl, hcr⟩
  · cases l with
    | lf => exact Or.inl rfl
    | node _ _ _ _ _ _ _ => exact Or.inr rfl
  · cases r with
    | lf => exact Or.inl rfl
    | node _ _ _ _ _ _ _ => exact Or.inr rfl

theorem fixup_spec (k i : Int) (l r : Tree) (h lc rc : Int)
    (hhl : heights_ok l = true) (hhr : heights_ok r = true)
    (hcl : counters_ok l = true) (hcr : counters_ok r = true) :
    ∃ a b, update_counter (update_height (.node k i l r h lc rc)) =
        .node k i l r (max (real_height l) (real_height r) + 1) a b ∧
      (l = .lf ∨ a = (size l : Int)) ∧ (r = .lf ∨ b = (size r : Int)) := by
  refine ⟨_, _, fixup_eq k i l r h lc rc hhl hhr hcl hcr, ?_, ?_⟩
  · cases l with
    | lf => exact Or.inl rfl
    | node _ _ _ _ _ _ _ => exact Or.inr rfl
  · cases r with
    | lf => exact Or.inl rfl
    | node _ _ _ _ _ _ _ => exact Or.inr rfl

/-! ## Rotation lemmas -/

theorem left_rotate_def (k i : Int) (l : Tree) (ck ci : Int) (cl cr : Tree)
    (ch clc crc h lc rc : Int) :
    left_rotate (.node k i l (.node ck ci cl cr ch clc crc) h lc rc) =
      update_counter (update_height (.node ck ci
        (update_counter (update_height (.node k i l cl h lc rc))) cr ch clc crc)) := rfl

theorem right_rotate_def (k i : Int) (ck ci : Int) (cl cr : Tree) (r : Tree)
    (ch clc crc h lc rc : Int) :
    right_rotate (.node k i (.node ck ci cl cr ch clc crc) r h lc rc) =
      update_counter (update_height (.node ck ci cl
        (update_counter (update_height (.node k i cr r h lc rc))) ch clc crc)) := rfl

theorem left_rotate_spec (k i : Int) (l : Tree) (ck ci : Int) (cl cr : Tree)
    (ch clc crc h lc rc : Int)
    (hhl : heights_ok l = true) (hhcl : heights_ok cl = true) (hhcr : heights_ok cr = true)
    (hcl : counters_ok l = true) (hccl : counters_ok cl = true) (hccr : counters_ok cr = true) :
    ∃ h1 a b h2 c d,
      left_rotate (.node k i l (.node ck ci cl cr ch clc crc) h lc rc) =
        .node ck ci (.node k i l cl h1 a b) cr h2 c d ∧
      heights_ok (.node ck ci (.node k i l cl h1 a b) cr h2 c d) = true ∧
      counters_ok (.node ck ci (.node k i l cl h1 a b) cr h2 c d) = true := by
  obtain ⟨a1, b1, e1, ha1, hb1⟩ := fixup_spec k i l cl h lc rc hhl hhcl hcl hccl
  have hin_h : heights_ok (.node k i l cl (max (real_height l) (real_height cl) + 1) a1 b1) = true :=
    heights_ok_node.mpr ⟨rfl, hhl, hhcl⟩
  have hin_c : counters_ok (.node k i l cl (max (real_height l) (real_height cl) + 1) a1 b1) = true :=
    counters_ok_node.mpr ⟨ha1, hb1, hcl, hccl⟩
  obtain ⟨a2, b2, e2, ha2, hb2⟩ :=
    fixup_spec ck ci (.node k i l cl (max (real_height l) (real_height cl) + 1) a1 b1) cr
      ch clc crc hin_h hhcr hin_c hccr
  refine ⟨max (real_height l) (real_height cl) + 1, a1, b1,
    max (real_height (Tree.node k i l cl (max (real_height l) (real_height cl) + 1) a1 b1))
      (real_height cr) + 1, a2, b2, ?_, ?_, ?_⟩
  · rw [left_rotate_def, e1, e2]
  · exact heights_ok_node.mpr ⟨rfl, hin_h, hhcr⟩
  · exact counters_ok_node.mpr ⟨ha2, hb2, hin_c, hccr⟩

theorem right_rotate_spec (k i : Int) (ck ci : Int) (cl cr : Tree) (r : Tree)
    (ch clc crc h lc rc : Int)
    (hhcl : heights_ok cl = true) (hhcr : heights_ok cr = true) (hhr : heights_ok r = true)
    (hccl : counters_ok cl = true) (hccr : counters_ok cr = true) (hcr : counters_ok r = true) :
    ∃ h1 a b h2 c d,
      right_rotate (.node k i (.node ck ci cl cr ch clc crc) r h lc rc) =
        .node ck ci cl (.node k i cr r h1 a b) h2 c d ∧
      heights_ok (.node ck ci cl (.node k i cr r h1 a b) h2 c d) = true ∧
      counters_ok (.node ck ci cl (.node k i cr r h1 a b) h2 c d) = true := by
  obtain ⟨a1, b1, e1, ha1, hb1⟩ := fixup_spec k i cr r h lc rc hhcr hhr hccr hcr
  have hin_h : heights_ok (.node k i cr r (max (real_height cr) (real_height r) + 1) a1 b1) = true :=
    heights_ok_node.mpr ⟨rfl, hhcr, hhr⟩
  have hin_c : counters_ok (.node k i cr r (max (real_height cr) (real_height r) + 1) a1 b1) = true :=
    counters_ok_node.mpr ⟨ha1, hb1, hccr, hcr⟩
  obtain ⟨a2, b2, e2, ha2, hb2⟩ :=
    fixup_spec ck ci cl (.node k i cr r (max (real_height cr) (real_height r) + 1) a1 b1)
      ch clc crc hhcl hin_h hccl hin_c
  refine ⟨max (real_height cr) (real_height r) + 1, a1, b1,
    max (real_height cl)
      (real_height (Tree.node k i cr r (max (real_height cr) (real_height r) + 1) a1 b1)) + 1,
    a2, b2, ?_, ?_, ?_⟩
  · rw [right_rotate_def, e1, e2]
  · exact heights_ok_node.mpr ⟨rfl, hhcl, hin_h⟩
  · exact counters_ok_node.mpr ⟨ha2, hb2, hccl, hin_c⟩

/-! ## Rebalance lemmas -/

theorem rebalance_of_abs_lt_two {t : Tree} (h1 : -2 < get_balance t)
    (h2 : get_balance t < 2) : rebalance t = t := by
  unfold rebalance
  rw [if_neg (by omega), if_neg (by omega)]

theorem rebalance_left_heavy (k i : Int) (l r : Tree) (h lc rc : Int)
    (hhl : heights_ok l = true) (hhr : heights_ok r = true)
    (hcl : counters_ok l = true) (hcr : counters_ok r = true)
    (hbl : balanced l = true) (hbr : balanced r = true)
    (hbf : real_height l = real_height r + 2) :
    keys (rebalance (.node k i l r h lc rc)) = keys l ++ k :: keys r ∧
    heights_ok (rebalance (.node k i l r h lc rc)) = true ∧
    counters_ok (rebalance (.node k i l r h lc rc)) = true ∧
    balanced (rebalance (.node k i l r h lc rc)) = true ∧
    size (rebalance (.node k i l r h lc rc)) = size l + size r + 1 ∧
    (real_height (rebalance (.node k i l r h lc rc)) = real_height l ∨
     real_height (rebalance (.node k i l r h lc rc)) = real_height l + 1) := by
  have hrnn := real_height_nonneg r
  cases l with
  | lf =>
      exfalso
      simp only [real_height] at hbf
      omega
  | node dk di dl dr dh dlc drc =>
      obtain ⟨hdh, hhdl, hhdr⟩ := heights_ok_node.mp hhl
      obtain ⟨hcdl', hcdr', hcdl, hcdr⟩ := counters_ok_node.mp hcl
      obtain ⟨⟨hbd1, hbd2⟩, hbdl, hbdr⟩ := balanced_node.mp hbl
      have hdlnn := real_height_nonneg dl
      have hdrnn := real_height_nonneg dr
      have hLh : real_height (.node dk di dl dr dh dlc drc) =
          max (real_height dl) (real_height dr) + 1 := rfl
      have e0 : rebalance (.node k i (.node dk di dl dr dh dlc drc) r h lc rc) =
          if get_height dr > get_height dl then
            right_rotate (.node k i
              (left_rotate (.node dk di dl dr dh dlc drc)) r h lc rc)
          else
            right_rotate (.node k i (.node dk di dl dr dh dlc drc) r h lc rc) := by
        unfold rebalance
        rw [get_balance_eq hhl hhr]
        rw [if_neg (by omega), if_pos (by omega)]
      rw [e0, get_height_eq hhdr, get_height_eq hhdl]
      by_cases hA : real_height dl < real_height dr
      · -- left-right case: the left child is right-heavy, double rotation
        rw [if_pos (by omega)]
        cases dr with
        | lf =>
            exfalso
            simp only [real_height] at hA
            omega
        | node ek ei el er eh elc erc =>
            obtain ⟨heh, hhel, hher⟩ := heights_ok_node.mp hhdr
            obtain ⟨hcel', hcer', hcel, hcer⟩ := counters_ok_node.mp hcdr
            obtain ⟨⟨hbe1, hbe2⟩, hbel, hber⟩ := balanced_node.mp hbdr
            have helnn := real_height_nonneg el
            have hernn := real_height_nonneg er
            obtain ⟨h1, a1, b1, h2, c1, d1, eL, hLh', hLc'⟩ :=
              left_rotate_spec dk di dl ek ei el er eh elc erc dh dlc drc
                hhdl hhel hher hcdl hcel hcer
            rw [eL]
            obtain ⟨hin_h, hin_h2⟩ := (heights_ok_node.mp hLh').2
            obtain ⟨hin_c, hin_c2⟩ := (counters_ok_node.mp hLc').2.2
            obtain ⟨h3, a3, b3, h4, c4, d4, eR, hRh, hRc⟩ :=
              right_rotate_spec k i ek ei (.node dk di dl el h1 a1 b1) er r h2 c1 d1 h lc rc
                hin_h hin_h2 hhr hin_c hin_c2 hcr
            rw [eR]
            simp only [real_height, keys, size] at hbf hA hbd1 hbd2 ⊢
            refine ⟨by simp [List.append_assoc], hRh, hRc, ?_, by omega, by omega⟩
            refine balanced_node.mpr ⟨⟨by simp only [real_height]; omega,
              by simp only [real_height]; omega⟩, ?_, ?_⟩
            · exact balanced_node.mpr ⟨⟨by omega, by omega⟩, hbdl, hbel⟩
            · exact balanced_node.mpr ⟨⟨by omega, by omega⟩, hber, hbr⟩
      · -- left-left case: single right rotation
        rw [if_neg (by omega)]
        obtain ⟨h1, a1, b1, h2, c1, d1, eR, hRh, hRc⟩ :=
          right_rotate_spec k i dk di dl dr r dh dlc drc h lc rc
            hhdl hhdr hhr hcdl hcdr hcr
        rw [eR]
        simp only [real_height, keys, size] at hbf hA hbd1 hbd2 ⊢
        refine ⟨by simp [List.append_assoc], hRh, hRc, ?_, by omega, by omega⟩
        refine balanced_node.mpr ⟨⟨by simp only [real_height]; omega,
          by simp only [real_height]; omega⟩, hbdl, ?_⟩
        exact balanced_node.mpr ⟨⟨by omega, by omega⟩, hbdr, hbr⟩

theorem rebalance_right_heavy (k i : Int) (l r : Tree) (h lc rc : Int)
    (hhl : heights_ok l = true) (hhr : heights_ok r = true)
    (hcl : counters_ok l = true) (hcr : counters_ok r = true)
    (hbl : balanced l = true) (hbr : balanced r = true)
    (hbf : real_height r = real_height l + 2) :
    keys (rebalance (.node k i l r h lc rc)) = keys l ++ k :: keys r ∧
    heights_ok (rebalance (.node k i l r h lc rc)) = true ∧
    counters_ok (rebalance (.node k i l r h lc rc)) = true ∧
    balanced (rebalance (.node k i l r h lc rc)) = true ∧
    size (rebalance (.node k i l r h lc rc)) = size l + size r + 1 ∧
    (real_height (rebalance (.node k i l r h lc rc)) = real_height r ∨
     real_height (rebalance (.node k i l r h lc rc)) = real_height r + 1) := by
  have hlnn := real_height_nonneg l
  cases r with
  | lf =>
      exfalso
      simp only [real_height] at hbf
      omega
  | node dk di dl dr dh dlc drc =>
      obtain ⟨hdh, hhdl, hhdr⟩ := heights_ok_node.mp hhr
      obtain ⟨hcdl', hcdr', hcdl, hcdr⟩ := counters_ok_node.mp hcr
      obtain ⟨⟨hbd1, hbd2⟩, hbdl, hbdr⟩ := balanced_node.mp hbr
      have hdlnn := real_height_nonneg dl
      have hdrnn := real_height_nonneg dr
      have e0 : rebalance (.node k i l (.node dk di dl dr dh dlc drc) h lc rc) =
          if get_height dl > get_height dr then
            left_rotate (.node k i l
              (right_rotate (.node dk di dl dr dh dlc drc)) h lc rc)
          else
            left_rotate (.node k i l (.node dk di dl dr dh dlc drc) h lc rc) := by
        unfold rebalance
        rw [get_balance_eq hhl hhr]
        rw [if_pos (by omega)]
      rw [e0, get_height_eq hhdl, get_height_eq hhdr]
      by_cases hA : real_height dr < real_height dl
      · -- right-left case: the right child is left-heavy, double rotation
        rw [if_pos (by omega)]
        cases dl with
        | lf =>
            exfalso
            simp only [real_height] at hA
            omega
        | node ek ei el er eh elc erc =>
            obtain ⟨heh, hhel, hher⟩ := heights_ok_node.mp hhdl
            obtain ⟨hcel', hcer', hcel, hcer⟩ := counters_ok_node.mp hcdl
            obtain ⟨⟨hbe1, hbe2⟩, hbel, hber⟩ := balanced_node.mp hbdl
            have helnn := real_height_nonneg el
            have hernn := real_height_nonneg er
            obtain ⟨h1, a1, b1, h2, c1, d1, eR, hRh', hRc'⟩ :=
              right_rotate_spec dk di ek ei el er dr eh elc erc dh dlc drc
                hhel hher hhdr hcel hcer hcdr
            rw [eR]
            obtain ⟨hin_h, hin_h2⟩ := (heights_ok_node.mp hRh').2
            obtain ⟨hin_c, hin_c2⟩ := (counters_ok_node.mp hRc').2.2
            obtain ⟨h3, a3, b3, h4, c4, d4, eL, hLh, hLc⟩ :=
              left_rotate_spec k i l ek ei el (.node dk di er dr h1 a1 b1) h2 c1 d1 h lc rc
                hhl hin_h hin_h2 hcl hin_c hin_c2
            rw [eL]
            simp only [real_height, keys, size] at hbf hA hbd1 hbd2 ⊢
            refine ⟨by simp [List.append_assoc], hLh, hLc, ?_, by omega, by omega⟩
            refine balanced_node.mpr ⟨⟨by simp only [real_height]; omega,
              by simp only [real_height]; omega⟩, ?_, ?_⟩
            · exact balanced_node.mpr ⟨⟨by omega, by omega⟩, hbl, hbel⟩
            · exact balanced_node.mpr ⟨⟨by omega, by omega⟩, hber, hbdr⟩
      · -- right-right case: single left rotation
        rw [if_neg (by omega)]
        obtain ⟨h1, a1, b1, h2, c1, d1, eL, hLh, hLc⟩ :=
          left_rotate_spec k i l dk di dl dr dh dlc drc h lc rc
            hhl hhdl hhdr hcl hcdl hcdr
        rw [eL]
        simp only [real_height, keys, size] at hbf hA hbd1 hbd2 ⊢
        refine ⟨by simp [List.append_assoc], hLh, hLc, ?_, by omega, by omega⟩
        refine balanced_node.mpr ⟨⟨by simp only [real_height]; omega,
          by simp only [real_height]; omega⟩, ?_, hbdr⟩
        exact balanced_node.mpr ⟨⟨by omega, by omega⟩, hbl, hbdl⟩

/-! ## Insert preservation -/

theorem insert_aux_node_def (k0 i0 : Int) (l r : Tree) (h0 lc0 rc0 key item len : Int) :
    insert_aux (.node k0 i0 l r h0 lc0 rc0) key item len =
      if key < k0 then
        match insert_aux l key item len with
        | .error (l', len') => .error (.node k0 i0 l' r h0 lc0 rc0, len')
        | .ok (l', len') =>
            .ok (rebalance (update_counter (update_height (.node k0 i0 l' r h0 lc0 rc0))), len')
      else if k0 < key then
        match insert_aux r key item len with
        | .error (r', len') => .error (.node k0 i0 l r' h0 lc0 rc0, len')
        | .ok (r', len') =>
            .ok (rebalance (update_counter (update_height (.node k0 i0 l r' h0 lc0 rc0))), len')
      else
        .error (.node k0 i0 l r h0 lc0 rc0, len) := rfl

theorem delete_aux_node_def (k0 i0 : Int) (l r : Tree) (h0 lc0 rc0 key len : Int) :
    delete_aux (.node k0 i0 l r h0 lc0 rc0) key len =
      if key < k0 then
        match delete_aux l key len with
        | .error (l', len') => .error (.node k0 i0 l' r h0 (lc0 - 1) rc0, len')
        | .ok (l', len') =>
            .ok (rebalance (update_counter (update_height
              (.node k0 i0 l' r h0 (lc0 - 1) rc0))), len')
      else if k0 < key then
        match delete_aux r key len with
        | .error (r', len') => .error (.node k0 i0 l r' h0 lc0 (rc0 - 1), len')
        | .ok (r', len') =>
            .ok (rebalance (update_counter (update_height
              (.node k0 i0 l r' h0 lc0 (rc0 - 1)))), len')
      else
        match l, r with
        | .lf, .lf => .ok (.lf, len - 1)
        | .lf, .node _ _ _ _ _ _ _ => .ok (r, len - 1)
        | .node _ _ _ _ _ _ _, .lf => .ok (l, len - 1)
        | .node _ _ _ _ _ _ _, .node _ _ _ _ _ _ _ =>
            let succ := leftmost r
            match delete_aux r succ.key len with
            | .error (r', len') => .error (.node succ.key succ.item l r' h0 lc0 rc0, len')
            | .ok (r', len') =>
                .ok (rebalance (update_counter (update_height
                      (.node succ.key succ.item l r' h0 lc0 rc0))), len') := rfl

theorem insert_aux_lf_def (key item len : Int) :
    insert_aux .lf key item len = .ok (.node key item .lf .lf 1 0 0, len + 1) := by
  simp [insert_aux, update_height, update_counter, get_height, rebalance, get_balance]

theorem delete_aux_lf_def (key len : Int) : delete_aux .lf key len = .error (.lf, len) := rfl

theorem keys_update_height (t : Tree) : keys (update_height t) = keys t := by
  cases t <;> rfl

theorem keys_update_counter (t : Tree) : keys (update_counter t) = keys t := by
  cases t <;> rfl

theorem left_rotate_node_ne (k i : Int) (l : Tree) (ck ci : Int) (cl cr : Tree)
    (ch clc crc h lc rc : Int) :
    left_rotate (.node k i l (.node ck ci cl cr ch clc crc) h lc rc) ≠ .lf := by
  rw [left_rotate_def, fixup_shape]
  exact fun hcon => Tree.noConfusion hcon

theorem right_rotate_node_ne (k i : Int) (ck ci : Int) (cl cr : Tree) (r : Tree)
    (ch clc crc h lc rc : Int) :
    right_rotate (.node k i (.node ck ci cl cr ch clc crc) r h lc rc) ≠ .lf := by
  rw [right_rotate_def, fixup_shape]
  exact fun hcon => Tree.noConfusion hcon

theorem left_rotate_keys (k i : Int) (l : Tree) (ck ci : Int) (cl cr : Tree)
    (ch clc crc h lc rc : Int) :
    keys (left_rotate (.node k i l (.node ck ci cl cr ch clc crc) h lc rc)) =
      keys (.node k i l (.node ck ci cl cr ch clc crc) h lc rc) := by
  rw [left_rotate_def, keys_update_counter, keys_update_height]
  show keys (update_counter (update_height (.node k i l cl h lc rc))) ++ ck :: keys cr = _
  rw [keys_update_counter, keys_update_height]
  show (keys l ++ k :: keys cl) ++ ck :: keys cr = keys l ++ k :: (keys cl ++ ck :: keys cr)
  simp

theorem right_rotate_keys (k i : Int) (ck ci : Int) (cl cr : Tree) (r : Tree)
    (ch clc crc h lc rc : Int) :
    keys (right_rotate (.node k i (.node ck ci cl cr ch clc crc) r h lc rc)) =
      keys (.node k i (.node ck ci cl cr ch clc crc) r h lc rc) := by
  rw [right_rotate_def, keys_update_counter, keys_update_height]
  show keys cl ++ ck :: keys (update_counter (update_height (.node k i cr r h lc rc))) = _
  rw [keys_update_counter, keys_update_height]
  show keys cl ++ ck :: (keys cr ++ k :: keys r) = (keys cl ++ ck :: keys cr) ++ k :: keys r
  simp

theorem rebalance_case_split (k i : Int) (l r : Tree) (h lc rc : Int)
    (hh : heights_ok (.node k i l r h lc rc) = true) :
    (2 ≤ get_balance (.node k i l r h lc rc) →
      r ≠ .lf ∧
      rebalance (.node k i l r h lc rc) =
        (if get_height (left_of r) > get_height (right_of r) then
          left_rotate (.node k i l (right_rotate r) h lc rc)
        else left_rotate (.node k i l r h lc rc))) ∧
    (get_balance (.node k i l r h lc rc) ≤ -2 →
      l ≠ .lf ∧
      rebalance (.node k i l r h lc rc) =
        (if get_height (right_of l) > get_height (left_of l) then
          right_rotate (.node k i (left_rotate l) r h lc rc)
        else right_rotate (.node k i l r h lc rc))) ∧
    (-2 < get_balance (.node k i l r h lc rc) →
      get_balance (.node k i l r h lc rc) < 2 →
      rebalance (.node k i l r h lc rc) = .node k i l r h lc rc) := by
  obtain ⟨hh0, hhl, hhr⟩ := heights_ok_node.mp hh
  have hbal : get_balance (.node k i l r h lc rc) = real_height r - real_height l :=
    get_balance_eq hhl hhr
  have hlnn := real_height_nonneg l
  have hrnn := real_height_nonneg r
  refine ⟨?_, ?_, ?_⟩
  · intro h2
    have hr : r ≠ .lf := by
      intro e
      subst e
      simp only [real_height] at hbal
      omega
    refine ⟨hr, ?_⟩
    cases r with
    | lf => exact absurd rfl hr
    | node ck ci cl cr ch clc crc =>
        unfold rebalance
        rw [if_pos h2]
        rfl
  · intro h2
    have hl : l ≠ .lf := by
      intro e
      subst e
      simp only [real_height] at hbal
      omega
    refine ⟨hl, ?_⟩
    cases l with
    | lf => exact absurd rfl hl
    | node ck ci cl cr ch clc crc =>
        unfold rebalance
        rw [if_neg (by omega), if_pos h2]
        rfl
  · intro ha hb2
    exact rebalance_of_abs_lt_two ha hb2

theorem rotation_safety (k i : Int) (l r : Tree) (h lc rc : Int)
    (hh : heights_ok (.node k i l r h lc rc) = true) :
    (2 ≤ get_balance (.node k i l r h lc rc) →
      r ≠ .lf ∧
      (get_height (left_of r) > get_height (right_of r) →
        right_rotate r ≠ .lf ∧
        left_rotate (.node k i l (right_rotate r) h lc rc) ≠ .lf) ∧
      (¬ get_height (left_of r) > get_height (right_of r) →
        left_rotate (.node k i l r h lc rc) ≠ .lf) ∧
      rebalance (.node k i l r h lc rc) ≠ .lf) ∧
    (get_balance (.node k i l r h lc rc) ≤ -2 →
      l ≠ .lf ∧
      (get_height (right_of l) > get_height (left_of l) →
        left_rotate l ≠ .lf ∧
        right_rotate (.node k i (left_rotate l) r h lc rc) ≠ .lf) ∧
      (¬ get_height (right_of l) > get_height (left_of l) →
        right_rotate (.node k i l r h lc rc) ≠ .lf) ∧
      rebalance (.node k i l r h lc rc) ≠ .lf) := by
  obtain ⟨hcs1, hcs2, _⟩ := rebalance_case_split k i l r h lc rc hh
  obtain ⟨hh0, hhl, hhr⟩ := heights_ok_node.mp hh
  constructor
  · intro h2
    obtain ⟨hr, heq⟩ := hcs1 h2
    cases r with
    | lf => exact absurd rfl hr
    | node ck ci cl cr ch clc crc =>
        obtain ⟨hch, hhcl, hhcr⟩ := heights_ok_node.mp hhr
        have hA : get_height (left_of (.node ck ci cl cr ch clc crc)) >
            get_height (right_of (.node ck ci cl cr ch clc crc)) →
            right_rotate (.node ck ci cl cr ch clc crc) ≠ .lf ∧
            left_rotate (.node k i l
              (right_rotate (.node ck ci cl cr ch clc crc)) h lc rc) ≠ .lf := by
          intro hcmp
          have hclne : cl ≠ .lf := by
            intro e
            subst e
            have hcrn := real_height_nonneg cr
            have hge : get_height cr = real_height cr := get_height_eq hhcr
            have h0 : get_height Tree.lf = 0 := rfl
            simp only [left_of, right_of] at hcmp
            omega
          cases cl with
          | lf => exact absurd rfl hclne
          | node dk di dl dr dh dlc drc =>
              refine ⟨right_rotate_node_ne ck ci dk di dl dr cr dh dlc drc ch clc crc, ?_⟩
              have hne := right_rotate_node_ne ck ci dk di dl dr cr dh dlc drc ch clc crc
              cases hrr : right_rotate (.node ck ci (.node dk di dl dr dh dlc drc)
                  cr ch clc crc) with
              | lf => exact absurd hrr hne
              | node ek ei el er eh elc erc =>
                  exact left_rotate_node_ne k i l ek ei el er eh elc erc h lc rc
        refine ⟨hr, hA, ?_, ?_⟩
        · intro hcmp
          exact left_rotate_node_ne k i l ck ci cl cr ch clc crc h lc rc
        · rw [heq]
          by_cases hcmp : get_height (left_of (.node ck ci cl cr ch clc crc)) >
              get_height (right_of (.node ck ci cl cr ch clc crc))
          · rw [if_pos hcmp]
            exact (hA hcmp).2
          · rw [if_neg hcmp]
            exact left_rotate_node_ne k i l ck ci cl cr ch clc crc h lc rc
  · intro h2
    obtain ⟨hl, heq⟩ := hcs2 h2
    cases l with
    | lf => exact absurd rfl hl
    | node ck ci cl cr ch clc crc =>
        obtain ⟨hch, hhcl, hhcr⟩ := heights_ok_node.mp hhl
        have hA : get_height (right_of (.node ck ci cl cr ch clc crc)) >
            get_height (left_of (.node ck ci cl cr ch clc crc)) →
            left_rotate (.node ck ci cl cr ch clc crc) ≠ .lf ∧
            right_rotate (.node k i
              (left_rotate (.node ck ci cl cr ch clc crc)) r h lc rc) ≠ .lf := by
          intro hcmp
          have hcrne : cr ≠ .lf := by
            intro e
            subst e
            have hcln := real_height_nonneg cl
            have hge : get_height cl = real_height cl := get_height_eq hhcl
            have h0 : get_height Tree.lf = 0 := rfl
            simp only [left_of, right_of] at hcmp
            omega
          cases cr with
          | lf => exact absurd rfl hcrne
          | node dk di dl dr dh dlc drc =>
              refine ⟨left_rotate_node_ne ck ci cl dk di dl dr dh dlc drc ch clc crc, ?_⟩
              have hne := left_rotate_node_ne ck ci cl dk di dl dr dh dlc drc ch clc crc
              cases hrr : left_rotate (.node ck ci cl (.node dk di dl dr dh dlc drc)
                  ch clc crc) with
              | lf => exact absurd hrr hne
              | node ek ei el er eh elc erc =>
                  exact right_rotate_node_ne k i ek ei el er r eh elc erc h lc rc
        refine ⟨hl, hA, ?_, ?_⟩
        · intro hcmp
          exact right_rotate_node_ne k i ck ci cl cr r ch clc crc h lc rc
        · rw [heq]
          by_cases hcmp : get_height (right_of (.node ck ci cl cr ch clc crc)) >
              get_height (left_of (.node ck ci cl cr ch clc crc))
          · rw [if_pos hcmp]
            exact (hA hcmp).2
          · rw [if_neg hcmp]
            exact right_rotate_node_ne k i ck ci cl cr r ch clc crc h lc rc

section
attribute [local irreducible] rebalance update_counter update_height left_rotate right_rotate
attribute [local irreducible] insert_aux delete_aux

set_option maxHeartbeats 1600000 in
theorem insert_glue_left (k0 i0 : Int) (l l' r : Tree) (h0 lc0 rc0 key : Int)
    (hhr : heights_ok r = true) (hcr : counters_ok r = true) (hbr : balanced r = true)
    (hsr : sorted_keys r) (hslk : ∀ x ∈ keys l, x < k0) (hsrk : ∀ y ∈ keys r, k0 < y)
    (hb1 : real_height r - real_height l ≤ 1) (hb2 : real_height l - real_height r ≤ 1)
    (IH1 : heights_ok l' = true) (IH2 : counters_ok l' = true) (IH3 : balanced l' = true)
    (IH4 : sorted_keys l') (IH5 : ∀ x, x ∈ keys l' ↔ x ∈ keys l ∨ x = key)
    (IH6 : size l' = size l + 1)
    (IH8 : real_height l' = real_height l ∨ real_height l' = real_height l + 1)
    (hlt : key < k0) :
    heights_ok (rebalance (update_counter (update_height (.node k0 i0 l' r h0 lc0 rc0)))) = true ∧
    counters_ok (rebalance (update_counter (update_height (.node k0 i0 l' r h0 lc0 rc0)))) = true ∧
    balanced (rebalance (update_counter (update_height (.node k0 i0 l' r h0 lc0 rc0)))) = true ∧
    sorted_keys (rebalance (update_counter (update_height (.node k0 i0 l' r h0 lc0 rc0)))) ∧
    (∀ x, x ∈ keys (rebalance (update_counter (update_height (.node k0 i0 l' r h0 lc0 rc0)))) ↔
      x ∈ keys (.node k0 i0 l r h0 lc0 rc0) ∨ x = key) ∧
    size (rebalance (update_counter (update_height (.node k0 i0 l' r h0 lc0 rc0)))) =
      size (.node k0 i0 l r h0 lc0 rc0) + 1 ∧
    (real_height (rebalance (update_counter (update_height (.node k0 i0 l' r h0 lc0 rc0)))) =
        real_height (.node k0 i0 l r h0 lc0 rc0) ∨
      real_height (rebalance (update_counter (update_height (.node k0 i0 l' r h0 lc0 rc0)))) =
        real_height (.node k0 i0 l r h0 lc0 rc0) + 1) := by
  have hlnn := real_height_nonneg l
  have hrnn := real_height_nonneg r
  have hl'nn := real_height_nonneg l'
  obtain ⟨a, b, efix, ha, hbb⟩ := fixup_spec k0 i0 l' r h0 lc0 rc0 IH1 hhr IH2 hcr
  rw [efix]
  have hsorted : sorted_keys
      (.node k0 i0 l' r (max (real_height l') (real_height r) + 1) a b) := by
    refine sorted_keys_node.mpr ⟨IH4, hsr, ?_, hsrk⟩
    intro x hx
    rcases (IH5 x).mp hx with hx' | rfl
    · exact hslk x hx'
    · exact hlt
  by_cases hcase : real_height l' = real_height r + 2
  · obtain ⟨hkeys, hh', hc', hb', hsize', hht'⟩ :=
      rebalance_left_heavy k0 i0 l' r
        (max (real_height l') (real_height r) + 1) a b
        IH1 hhr IH2 hcr IH3 hbr hcase
    refine ⟨hh', hc', hb', ?_, ?_, ?_, ?_⟩
    · unfold sorted_keys
      rw [hkeys]
      exact hsorted
    · intro x
      rw [hkeys]
      have h1 := IH5 x
      simp only [keys, List.mem_append, List.mem_cons] at h1 ⊢
      constructor
      · rintro (hx | rfl | hx)
        · rcases h1.mp hx with h | h
          · exact Or.inl (Or.inl h)
          · exact Or.inr h
        · exact Or.inl (Or.inr (Or.inl rfl))
        · exact Or.inl (Or.inr (Or.inr hx))
      · rintro ((hx | rfl | hx) | rfl)
        · exact Or.inl (h1.mpr (Or.inl hx))
        · exact Or.inr (Or.inl rfl)
        · exact Or.inr (Or.inr hx)
        · exact Or.inl (h1.mpr (Or.inr rfl))
    · rw [hsize']
      simp only [size]
      omega
    · simp only [real_height]
      omega
  · have hnoop : rebalance
        (.node k0 i0 l' r (max (real_height l') (real_height r) + 1) a b) =
        .node k0 i0 l' r (max (real_height l') (real_height r) + 1) a b := by
      apply rebalance_of_abs_lt_two
      · rw [get_balance_eq IH1 hhr]; omega
      · rw [get_balance_eq IH1 hhr]; omega
    rw [hnoop]
    refine ⟨heights_ok_node.mpr ⟨rfl, IH1, hhr⟩,
      counters_ok_node.mpr ⟨ha, hbb, IH2, hcr⟩,
      balanced_node.mpr ⟨⟨by omega, by omega⟩, IH3, hbr⟩,
      hsorted, ?_, ?_, ?_⟩
    · intro x
      have h1 := IH5 x
      simp only [keys, List.mem_append, List.mem_cons] at h1 ⊢
      constructor
      · rintro (hx | rfl | hx)
        · rcases h1.mp hx with h | h
          · exact Or.inl (Or.inl h)
          · exact Or.inr h
        · exact Or.inl (Or.inr (Or.inl rfl))
        · exact Or.inl (Or.inr (Or.inr hx))
      · rintro ((hx | rfl | hx) | rfl)
        · exact Or.inl (h1.mpr (Or.inl hx))
        · exact Or.inr (Or.inl rfl)
        · exact Or.inr (Or.inr hx)
        · exact Or.inl (h1.mpr (Or.inr rfl))
    · simp only [size]
      omega
    · simp only [real_height]
      omega

set_option maxHeartbeats 1600000 in
theorem insert_glue_right (k0 i0 : Int) (l r r' : Tree) (h0 lc0 rc0 key : Int)
    (hhl : heights_ok l = true) (hcl : counters_ok l = true) (hbl : balanced l = true)
    (hsl : sorted_keys l) (hslk : ∀ x ∈ keys l, x < k0) (hsrk : ∀ y ∈ keys r, k0 < y)
    (hb1 : real_height r - real_height l ≤ 1) (hb2 : real_height l - real_height r ≤ 1)
    (IH1 : heights_ok r' = true) (IH2 : counters_ok r' = true) (IH3 : balanced r' = true)
    (IH4 : sorted_keys r') (IH5 : ∀ x, x ∈ keys r' ↔ x ∈ keys r ∨ x = key)
    (IH6 : size r' = size r + 1)
    (IH8 : real_height r' = real_height r ∨ real_height r' = real_height r + 1)
    (hgt : k0 < key) :
    heights_ok (rebalance (update_counter (update_height (.node k0 i0 l r' h0 lc0 rc0)))) = true ∧
    counters_ok (rebalance (update_counter (update_height (.node k0 i0 l r' h0 lc0 rc0)))) = true ∧
    balanced (rebalance (update_counter (update_height (.node k0 i0 l r' h0 lc0 rc0)))) = true ∧
    sorted_keys (rebalance (update_counter (update_height (.node k0 i0 l r' h0 lc0 rc0)))) ∧
    (∀ x, x ∈ keys (rebalance (update_counter (update_height (.node k0 i0 l r' h0 lc0 rc0)))) ↔
      x ∈ keys (.node k0 i0 l r h0 lc0 rc0) ∨ x = key) ∧
    size (rebalance (update_counter (update_height (.node k0 i0 l r' h0 lc0 rc0)))) =
      size (.node k0 i0 l r h0 lc0 rc0) + 1 ∧
    (real_height (rebalance (update_counter (update_height (.node k0 i0 l r' h0 lc0 rc0)))) =
        real_height (.node k0 i0 l r h0 lc0 rc0) ∨
      real_height (rebalance (update_counter (update_height (.node k0 i0 l r' h0 lc0 rc0)))) =
        real_height (.node k0 i0 l r h0 lc0 rc0) + 1) := by
  have hlnn := real_height_nonneg l
  have hrnn := real_height_nonneg r
  have hr'nn := real_height_nonneg r'
  obtain ⟨a, b, efix, ha, hbb⟩ := fixup_spec k0 i0 l r' h0 lc0 rc0 hhl IH1 hcl IH2
  rw [efix]
  have hsorted : sorted_keys
      (.node k0 i0 l r' (max (real_height l) (real_height r') + 1) a b) := by
    refine sorted_keys_node.mpr ⟨hsl, IH4, hslk, ?_⟩
    intro x hx
    rcases (IH5 x).mp hx with hx' | rfl
    · exact hsrk x hx'
    · exact hgt
  by_cases hcase : real_height r' = real_height l + 2
  · obtain ⟨hkeys, hh', hc', hb', hsize', hht'⟩ :=
      rebalance_right_heavy k0 i0 l r'
        (max (real_height l) (real_height r') + 1) a b
        hhl IH1 hcl IH2 hbl IH3 hcase
    refine ⟨hh', hc', hb', ?_, ?_, ?_, ?_⟩
    · unfold sorted_keys
      rw [hkeys]
      exact hsorted
    · intro x
      rw [hkeys]
      have h1 := IH5 x
      simp only [keys, List.mem_append, List.mem_cons] at h1 ⊢
      constructor
      · rintro (hx | rfl | hx)
        · exact Or.inl (Or.inl hx)
        · exact Or.inl (Or.inr (Or.inl rfl))
        · rcases h1.mp hx with h | h
          · exact Or.inl (Or.inr (Or.inr h))
          · exact Or.inr h
      · rintro ((hx | rfl | hx) | rfl)
        · exact Or.inl hx
        · exact Or.inr (Or.inl rfl)
        · exact Or.inr (Or.inr (h1.mpr (Or.inl hx)))
        · exact Or.inr (Or.inr (h1.mpr (Or.inr rfl)))
    · rw [hsize']
      simp only [size]
      omega
    · simp only [real_height]
      omega
  · have hnoop : rebalance
        (.node k0 i0 l r' (max (real_height l) (real_height r') + 1) a b) =
        .node k0 i0 l r' (max (real_height l) (real_height r') + 1) a b := by
      apply rebalance_of_abs_lt_two
      · rw [get_balance_eq hhl IH1]; omega
      · rw [get_balance_eq hhl IH1]; omega
    rw [hnoop]
    refine ⟨heights_ok_node.mpr ⟨rfl, hhl, IH1⟩,
      counters_ok_node.mpr ⟨ha, hbb, hcl, IH2⟩,
      balanced_node.mpr ⟨⟨by omega, by omega⟩, hbl, IH3⟩,
      hsorted, ?_, ?_, ?_⟩
    · intro x
      have h1 := IH5 x
      simp only [keys, List.mem_append, List.mem_cons] at h1 ⊢
      constructor
      · rintro (hx | rfl | hx)
        · exact Or.inl (Or.inl hx)
        · exact Or.inl (Or.inr (Or.inl rfl))
        · rcases h1.mp hx with h | h
          · exact Or.inl (Or.inr (Or.inr h))
          · exact Or.inr h
      · rintro ((hx | rfl | hx) | rfl)
        · exact Or.inl hx
        · exact Or.inr (Or.inl rfl)
        · exact Or.inr (Or.inr (h1.mpr (Or.inl hx)))
        · exact Or.inr (Or.inr (h1.mpr (Or.inr rfl)))
    · simp only [size]
      omega
    · simp only [real_height]
      omega

set_option maxHeartbeats 1600000 in
theorem insert_aux_ok (t : Tree) : ∀ key item len t' len',
    heights_ok t = true → counters_ok t = true → balanced t = true → sorted_keys t →
    insert_aux t key item len = .ok (t', len') →
    heights_ok t' = true ∧ counters_ok t' = true ∧ balanced t' = true ∧ sorted_keys t' ∧
    (∀ x, x ∈ keys t' ↔ x ∈ keys t ∨ x = key) ∧
    size t' = size t + 1 ∧ len' = len + 1 ∧
    (real_height t' = real_height t ∨ real_height t' = real_height t + 1) := by
  induction t with
  | lf =>
      intro key item len t' len' _ _ _ _ hok
      rw [insert_aux_lf_def] at hok
      obtain ⟨rfl, rfl⟩ : (Tree.node key item .lf .lf 1 0 0 = t' ∧ len + 1 = len') := by
        simpa using hok
      refine ⟨?_, ?_, ?_, ?_, ?_, rfl, rfl, ?_⟩
      · exact heights_ok_node.mpr ⟨by simp [real_height], rfl, rfl⟩
      · exact counters_ok_node.mpr ⟨Or.inl rfl, Or.inl rfl, rfl, rfl⟩
      · exact balanced_node.mpr ⟨by simp [real_height], rfl, rfl⟩
      · simp [sorted_keys, keys]
      · intro x; simp [keys]
      · simp [real_height]
  | node k0 i0 l r h0 lc0 rc0 ihl ihr =>
      intro key item len t' len' hh hc hb hs hok
      obtain ⟨hh0, hhl, hhr⟩ := heights_ok_node.mp hh
      obtain ⟨hcl', hcr', hcl, hcr⟩ := counters_ok_node.mp hc
      obtain ⟨⟨hb1, hb2⟩, hbl, hbr⟩ := balanced_node.mp hb
      obtain ⟨hsl, hsr, hslk, hsrk⟩ := sorted_keys_node.mp hs
      have hlnn := real_height_nonneg l
      have hrnn := real_height_nonneg r
      by_cases hlt : key < k0
      · cases hrec : insert_aux l key item len with
        | error p =>
            obtain ⟨l', len2⟩ := p
            have e : insert_aux (.node k0 i0 l r h0 lc0 rc0) key item len =
                .error (.node k0 i0 l' r h0 lc0 rc0, len2) := by
              rw [insert_aux_node_def, if_pos hlt, hrec]
            rw [e] at hok
            exact Except.noConfusion hok
        | ok p =>
            obtain ⟨l', len2⟩ := p
            have e : insert_aux (.node k0 i0 l r h0 lc0 rc0) key item len =
                .ok (rebalance (update_counter (update_height
                  (.node k0 i0 l' r h0 lc0 rc0))), len2) := by
              rw [insert_aux_node_def, if_pos hlt, hrec]
            rw [e] at hok
            obtain ⟨ht', rfl⟩ : rebalance (update_counter (update_height
                (.node k0 i0 l' r h0 lc0 rc0))) = t' ∧ len2 = len' := by
              simpa using hok
            obtain ⟨IH1, IH2, IH3, IH4, IH5, IH6, IH7, IH8⟩ :=
              ihl key item len l' len2 hhl hcl hbl hsl hrec
            subst ht'
            obtain ⟨G1, G2, G3, G4, G5, G6, G7⟩ :=
              insert_glue_left k0 i0 l l' r h0 lc0 rc0 key hhr hcr hbr hsr hslk hsrk
                hb1 hb2 IH1 IH2 IH3 IH4 IH5 IH6 IH8 hlt
            exact ⟨G1, G2, G3, G4, G5, G6, IH7, G7⟩
      · by_cases hgt : k0 < key
        · cases hrec : insert_aux r key item len with
          | error p =>
              obtain ⟨r', len2⟩ := p
              have e : insert_aux (.node k0 i0 l r h0 lc0 rc0) key item len =
                  .error (.node k0 i0 l r' h0 lc0 rc0, len2) := by
                rw [insert_aux_node_def, if_neg hlt, if_pos hgt, hrec]
              rw [e] at hok
              exact Except.noConfusion hok
          | ok p =>
              obtain ⟨r', len2⟩ := p
              have e : insert_aux (.node k0 i0 l r h0 lc0 rc0) key item len =
                  .ok (rebalance (update_counter (update_height
                    (.node k0 i0 l r' h0 lc0 rc0))), len2) := by
                rw [insert_aux_node_def, if_neg hlt, if_pos hgt, hrec]
              rw [e] at hok
              obtain ⟨ht', rfl⟩ : rebalance (update_counter (update_height
                  (.node k0 i0 l r' h0 lc0 rc0))) = t' ∧ len2 = len' := by
                simpa using hok
              obtain ⟨IH1, IH2, IH3, IH4, IH5, IH6, IH7, IH8⟩ :=
                ihr key item len r' len2 hhr hcr hbr hsr hrec
              subst ht'
              obtain ⟨G1, G2, G3, G4, G5, G6, G7⟩ :=
                insert_glue_right k0 i0 l r r' h0 lc0 rc0 key hhl hcl hbl hsl hslk hsrk
                  hb1 hb2 IH1 IH2 IH3 IH4 IH5 IH6 IH8 hgt
              exact ⟨G1, G2, G3, G4, G5, G6, IH7, G7⟩
        · have e : insert_aux (.node k0 i0 l r h0 lc0 rc0) key item len =
              .error (.node k0 i0 l r h0 lc0 rc0, len) := by
            rw [insert_aux_node_def, if_neg hlt, if_neg hgt]
          rw [e] at hok
          exact Except.noConfusion hok

/-- Inserting a key that is already present raises the duplicate error and
propagates it without touching anything on the search path. -/
theorem insert_aux_err (t : Tree) : ∀ key item len, sorted_keys t → key ∈ keys t →
    insert_aux t key item len = .error (t, len) := by
  induction t with
  | lf => intro key item len _ hmem; simp [keys] at hmem
  | node k0 i0 l r h0 lc0 rc0 ihl ihr =>
      intro key item len hs hmem
      obtain ⟨hsl, hsr, hslk, hsrk⟩ := sorted_keys_node.mp hs
      simp only [keys, List.mem_append, List.mem_cons] at hmem
      rcases hmem with hmem | rfl | hmem
      · have hlt : key < k0 := hslk key hmem
        rw [insert_aux_node_def, if_pos hlt, ihl key item len hsl hmem]
      · rw [insert_aux_node_def, if_neg (lt_irrefl key), if_neg (lt_irrefl key)]
      · have hgt : k0 < key := hsrk key hmem
        have hlt : ¬ key < k0 := by omega
        rw [insert_aux_node_def, if_neg hlt, if_pos hgt, ihr key item len hsr hmem]

/-! ## Delete preservation -/

theorem leftmost_keys (t : Tree) : t ≠ .lf → ∃ rest, keys t = (leftmost t).key :: rest := by
  induction t with
  | lf => intro h; exact absurd rfl h
  | node k0 i0 l r h0 lc0 rc0 ihl ihr =>
      intro _
      cases l with
      | lf => exact ⟨keys r, by simp [keys, leftmost, key]⟩
      | node lk li ll lr lh llc lrc =>
          obtain ⟨rest, hrest⟩ := ihl (by simp)
          refine ⟨rest ++ k0 :: keys r, ?_⟩
          have hl : leftmost (.node k0 i0 (.node lk li ll lr lh llc lrc) r h0 lc0 rc0) =
              leftmost (.node lk li ll lr lh llc lrc) := rfl
          have e : keys (.node k0 i0 (.node lk li ll lr lh llc lrc) r h0 lc0 rc0) =
              keys (.node lk li ll lr lh llc lrc) ++ k0 :: keys r := rfl
          rw [hl, e, hrest]
          simp

set_option maxHeartbeats 1600000 in
theorem delete_glue_left (k0 i0 : Int) (l l' r : Tree) (h0 lc0 rc0 key : Int)
    (hhr : heights_ok r = true) (hcr : counters_ok r = true) (hbr : balanced r = true)
    (hsr : sorted_keys r) (hslk : ∀ x ∈ keys l, x < k0) (hsrk : ∀ y ∈ keys r, k0 < y)
    (hb1 : real_height r - real_height l ≤ 1) (hb2 : real_height l - real_height r ≤ 1)
    (IH1 : heights_ok l' = true) (IH2 : counters_ok l' = true) (IH3 : balanced l' = true)
    (IH4 : sorted_keys l') (IH5 : ∀ x, x ∈ keys l' ↔ x ∈ keys l ∧ x ≠ key)
    (IH6 : size l = size l' + 1)
    (IH8 : real_height l' = real_height l ∨ real_height l' + 1 = real_height l)
    (hlt : key < k0) :
    heights_ok (rebalance (update_counter (update_height
      (.node k0 i0 l' r h0 (lc0 - 1) rc0)))) = true ∧
    counters_ok (rebalance (update_counter (update_height
      (.node k0 i0 l' r h0 (lc0 - 1) rc0)))) = true ∧
    balanced (rebalance (update_counter (update_height
      (.node k0 i0 l' r h0 (lc0 - 1) rc0)))) = true ∧
    sorted_keys (rebalance (update_counter (update_height
      (.node k0 i0 l' r h0 (lc0 - 1) rc0)))) ∧
    (∀ x, x ∈ keys (rebalance (update_counter (update_height
      (.node k0 i0 l' r h0 (lc0 - 1) rc0)))) ↔
      x ∈ keys (.node k0 i0 l r h0 lc0 rc0) ∧ x ≠ key) ∧
    size (.node k0 i0 l r h0 lc0 rc0) =
      size (rebalance (update_counter (update_height
        (.node k0 i0 l' r h0 (lc0 - 1) rc0)))) + 1 ∧
    (real_height (rebalance (update_counter (update_height
        (.node k0 i0 l' r h0 (lc0 - 1) rc0)))) =
        real_height (.node k0 i0 l r h0 lc0 rc0) ∨
      real_height (rebalance (update_counter (update_height
        (.node k0 i0 l' r h0 (lc0 - 1) rc0)))) + 1 =
        real_height (.node k0 i0 l r h0 lc0 rc0)) := by
  have hlnn := real_height_nonneg l
  have hrnn := real_height_nonneg r
  have hl'nn := real_height_nonneg l'
  obtain ⟨a, b, efix, ha, hbb⟩ := fixup_spec k0 i0 l' r h0 (lc0 - 1) rc0 IH1 hhr IH2 hcr
  rw [efix]
  have hsorted : sorted_keys
      (.node k0 i0 l' r (max (real_height l') (real_height r) + 1) a b) := by
    refine sorted_keys_node.mpr ⟨IH4, hsr, ?_, hsrk⟩
    intro x hx
    exact hslk x ((IH5 x).mp hx).1
  by_cases hcase : real_height r = real_height l' + 2
  · obtain ⟨hkeys, hh', hc', hb', hsize', hht'⟩ :=
      rebalance_right_heavy k0 i0 l' r
        (max (real_height l') (real_height r) + 1) a b
        IH1 hhr IH2 hcr IH3 hbr hcase
    refine ⟨hh', hc', hb', ?_, ?_, ?_, ?_⟩
    · unfold sorted_keys
      rw [hkeys]
      exact hsorted
    · intro x
      rw [hkeys]
      have h1 := IH5 x
      have h2 : x ∈ keys r → x ≠ key := fun hx => by have := hsrk x hx; omega
      have h3 : x = k0 → x ≠ key := by intro e; omega
      simp only [keys, List.mem_append, List.mem_cons] at h1 ⊢
      constructor
      · rintro (hx | rfl | hx)
        · exact ⟨Or.inl (h1.mp hx).1, (h1.mp hx).2⟩
        · exact ⟨Or.inr (Or.inl rfl), h3 rfl⟩
        · exact ⟨Or.inr (Or.inr hx), h2 hx⟩
      · rintro ⟨hx | rfl | hx, hne⟩
        · exact Or.inl (h1.mpr ⟨hx, hne⟩)
        · exact Or.inr (Or.inl rfl)
        · exact Or.inr (Or.inr hx)
    · rw [hsize']
      simp only [size]
      omega
    · simp only [real_height]
      omega
  · have hnoop : rebalance
        (.node k0 i0 l' r (max (real_height l') (real_height r) + 1) a b) =
        .node k0 i0 l' r (max (real_height l') (real_height r) + 1) a b := by
      apply rebalance_of_abs_lt_two
      · rw [get_balance_eq IH1 hhr]; omega
      · rw [get_balance_eq IH1 hhr]; omega
    rw [hnoop]
    refine ⟨heights_ok_node.mpr ⟨rfl, IH1, hhr⟩,
      counters_ok_node.mpr ⟨ha, hbb, IH2, hcr⟩,
      balanced_node.mpr ⟨⟨by omega, by omega⟩, IH3, hbr⟩,
      hsorted, ?_, ?_, ?_⟩
    · intro x
      have h1 := IH5 x
      have h2 : x ∈ keys r → x ≠ key := fun hx => by have := hsrk x hx; omega
      have h3 : x = k0 → x ≠ key := by intro e; omega
      simp only [keys, List.mem_append, List.mem_cons] at h1 ⊢
      constructor
      · rintro (hx | rfl | hx)
        · exact ⟨Or.inl (h1.mp hx).1, (h1.mp hx).2⟩
        · exact ⟨Or.inr (Or.inl rfl), h3 rfl⟩
        · exact ⟨Or.inr (Or.inr hx), h2 hx⟩
      · rintro ⟨hx | rfl | hx, hne⟩
        · exact Or.inl (h1.mpr ⟨hx, hne⟩)
        · exact Or.inr (Or.inl rfl)
        · exact Or.inr (Or.inr hx)
    · simp only [size]
      omega
    · simp only [real_height]
      omega

set_option maxHeartbeats 1600000 in
theorem delete_glue_right (k0 i0 : Int) (l r r' : Tree) (h0 lc0 rc0 key : Int)
    (hhl : heights_ok l = true) (hcl : counters_ok l = true) (hbl : balanced l = true)
    (hsl : sorted_keys l) (hslk : ∀ x ∈ keys l, x < k0) (hsrk : ∀ y ∈ keys r, k0 < y)
    (hb1 : real_height r - real_height l ≤ 1) (hb2 : real_height l - real_height r ≤ 1)
    (IH1 : heights_ok r' = true) (IH2 : counters_ok r' = true) (IH3 : balanced r' = true)
    (IH4 : sorted_keys r') (IH5 : ∀ x, x ∈ keys r' ↔ x ∈ keys r ∧ x ≠ key)
    (IH6 : size r = size r' + 1)
    (IH8 : real_height r' = real_height r ∨ real_height r' + 1 = real_height r)
    (hgt : k0 < key) :
    heights_ok (rebalance (update_counter (update_height
      (.node k0 i0 l r' h0 lc0 (rc0 - 1))))) = true ∧
    counters_ok (rebalance (update_counter (update_height
      (.node k0 i0 l r' h0 lc0 (rc0 - 1))))) = true ∧
    balanced (rebalance (update_counter (update_height
      (.node k0 i0 l r' h0 lc0 (rc0 - 1))))) = true ∧
    sorted_keys (rebalance (update_counter (update_height
      (.node k0 i0 l r' h0 lc0 (rc0 - 1))))) ∧
    (∀ x, x ∈ keys (rebalance (update_counter (update_height
      (.node k0 i0 l r' h0 lc0 (rc0 - 1))))) ↔
      x ∈ keys (.node k0 i0 l r h0 lc0 rc0) ∧ x ≠ key) ∧
    size (.node k0 i0 l r h0 lc0 rc0) =
      size (rebalance (update_counter (update_height
        (.node k0 i0 l r' h0 lc0 (rc0 - 1))))) + 1 ∧
    (real_height (rebalance (update_counter (update_height
        (.node k0 i0 l r' h0 lc0 (rc0 - 1))))) =
        real_height (.node k0 i0 l r h0 lc0 rc0) ∨
      real_height (rebalance (update_counter (update_height
        (.node k0 i0 l r' h0 lc0 (rc0 - 1))))) + 1 =
        real_height (.node k0 i0 l r h0 lc0 rc0)) := by
  have hlnn := real_height_nonneg l
  have hrnn := real_height_nonneg r
  have hr'nn := real_height_nonneg r'
  obtain ⟨a, b, efix, ha, hbb⟩ := fixup_spec k0 i0 l r' h0 lc0 (rc0 - 1) hhl IH1 hcl IH2
  rw [efix]
  have hsorted : sorted_keys
      (.node k0 i0 l r' (max (real_height l) (real_height r') + 1) a b) := by
    refine sorted_keys_node.mpr ⟨hsl, IH4, hslk, ?_⟩
    intro x hx
    exact hsrk x ((IH5 x).mp hx).1
  by_cases hcase : real_height l = real_height r' + 2
  · obtain ⟨hkeys, hh', hc', hb', hsize', hht'⟩ :=
      rebalance_left_heavy k0 i0 l r'
        (max (real_height l) (real_height r') + 1) a b
        hhl IH1 hcl IH2 hbl IH3 hcase
    refine ⟨hh', hc', hb', ?_, ?_, ?_, ?_⟩
    · unfold sorted_keys
      rw [hkeys]
      exact hsorted
    · intro x
      rw [hkeys]
      have h1 := IH5 x
      have h2 : x ∈ keys l → x ≠ key := fun hx => by have := hslk x hx; omega
      have h3 : x = k0 → x ≠ key := by intro e; omega
      simp only [keys, List.mem_append, List.mem_cons] at h1 ⊢
      constructor
      · rintro (hx | rfl | hx)
        · exact ⟨Or.inl hx, h2 hx⟩
        · exact ⟨Or.inr (Or.inl rfl), h3 rfl⟩
        · exact ⟨Or.inr (Or.inr (h1.mp hx).1), (h1.mp hx).2⟩
      · rintro ⟨hx | rfl | hx, hne⟩
        · exact Or.inl hx
        · exact Or.inr (Or.inl rfl)
        · exact Or.inr (Or.inr (h1.mpr ⟨hx, hne⟩))
    · rw [hsize']
      simp only [size]
      omega
    · simp only [real_height]
      omega
  · have hnoop : rebalance
        (.node k0 i0 l r' (max (real_height l) (real_height r') + 1) a b) =
        .node k0 i0 l r' (max (real_height l) (real_height r') + 1) a b := by
      apply rebalance_of_abs_lt_two
      · rw [get_balance_eq hhl IH1]; omega
      · rw [get_balance_eq hhl IH1]; omega
    rw [hnoop]
    refine ⟨heights_ok_node.mpr ⟨rfl, hhl, IH1⟩,
      counters_ok_node.mpr ⟨ha, hbb, hcl, IH2⟩,
      balanced_node.mpr ⟨⟨by omega, by omega⟩, hbl, IH3⟩,
      hsorted, ?_, ?_, ?_⟩
    · intro x
      have h1 := IH5 x
      have h2 : x ∈ keys l → x ≠ key := fun hx => by have := hslk x hx; omega
      have h3 : x = k0 → x ≠ key := by intro e; omega
      simp only [keys, List.mem_append, List.mem_cons] at h1 ⊢
      constructor
      · rintro (hx | rfl | hx)
        · exact ⟨Or.inl hx, h2 hx⟩
        · exact ⟨Or.inr (Or.inl rfl), h3 rfl⟩
        · exact ⟨Or.inr (Or.inr (h1.mp hx).1), (h1.mp hx).2⟩
      · rintro ⟨hx | rfl | hx, hne⟩
        · exact Or.inl hx
        · exact Or.inr (Or.inl rfl)
        · exact Or.inr (Or.inr (h1.mpr ⟨hx, hne⟩))
    · simp only [size]
      omega
    · simp only [real_height]
      omega


set_option maxHeartbeats 1600000 in
theorem delete_glue_succ (k0 i0 : Int) (l r r' : Tree) (h0 lc0 rc0 sk si : Int)
    (rest : List Int)
    (hhl : heights_ok l = true) (hcl : counters_ok l = true) (hbl : balanced l = true)
    (hsl : sorted_keys l) (hsr : sorted_keys r)
    (hslk : ∀ x ∈ keys l, x < k0) (hsrk : ∀ y ∈ keys r, k0 < y)
    (hb1 : real_height r - real_height l ≤ 1) (hb2 : real_height l - real_height r ≤ 1)
    (hrk : keys r = sk :: rest)
    (IH1 : heights_ok r' = true) (IH2 : counters_ok r' = true) (IH3 : balanced r' = true)
    (IH4 : sorted_keys r') (IH5 : ∀ x, x ∈ keys r' ↔ x ∈ keys r ∧ x ≠ sk)
    (IH6 : size r = size r' + 1)
    (IH8 : real_height r' = real_height r ∨ real_height r' + 1 = real_height r) :
    heights_ok (rebalance (update_counter (update_height
      (.node sk si l r' h0 lc0 rc0)))) = true ∧
    counters_ok (rebalance (update_counter (update_height
      (.node sk si l r' h0 lc0 rc0)))) = true ∧
    balanced (rebalance (update_counter (update_height
      (.node sk si l r' h0 lc0 rc0)))) = true ∧
    sorted_keys (rebalance (update_counter (update_height
      (.node sk si l r' h0 lc0 rc0)))) ∧
    (∀ x, x ∈ keys (rebalance (update_counter (update_height
      (.node sk si l r' h0 lc0 rc0)))) ↔
      x ∈ keys (.node k0 i0 l r h0 lc0 rc0) ∧ x ≠ k0) ∧
    size (.node k0 i0 l r h0 lc0 rc0) =
      size (rebalance (update_counter (update_height
        (.node sk si l r' h0 lc0 rc0)))) + 1 ∧
    (real_height (rebalance (update_counter (update_height
        (.node sk si l r' h0 lc0 rc0)))) =
        real_height (.node k0 i0 l r h0 lc0 rc0) ∨
      real_height (rebalance (update_counter (update_height
        (.node sk si l r' h0 lc0 rc0)))) + 1 =
        real_height (.node k0 i0 l r h0 lc0 rc0)) := by
  have hlnn := real_height_nonneg l
  have hrnn := real_height_nonneg r
  have hr'nn := real_height_nonneg r'
  have hsk_mem : sk ∈ keys r := by rw [hrk]; exact List.mem_cons_self _ _
  have hk0sk : k0 < sk := hsrk sk hsk_mem
  have hrest_gt : ∀ y ∈ rest, sk < y := by
    have h := hsr
    unfold sorted_keys at h
    rw [hrk] at h
    exact (List.pairwise_cons.mp h).1
  have hr'_gt : ∀ y ∈ keys r', sk < y := by
    intro y hy
    obtain ⟨hyr, hysk⟩ := (IH5 y).mp hy
    rw [hrk] at hyr
    rcases List.mem_cons.mp hyr with rfl | hyr
    · exact absurd rfl hysk
    · exact hrest_gt y hyr
  obtain ⟨a, b, efix, ha, hbb⟩ := fixup_spec sk si l r' h0 lc0 rc0 hhl IH1 hcl IH2
  rw [efix]
  have hsorted : sorted_keys
      (.node sk si l r' (max (real_height l) (real_height r') + 1) a b) := by
    refine sorted_keys_node.mpr ⟨hsl, IH4, ?_, hr'_gt⟩
    intro x hx
    exact lt_trans (hslk x hx) hk0sk
  by_cases hcase : real_height l = real_height r' + 2
  · obtain ⟨hkeys, hh', hc', hb', hsize', hht'⟩ :=
      rebalance_left_heavy sk si l r'
        (max (real_height l) (real_height r') + 1) a b
        hhl IH1 hcl IH2 hbl IH3 hcase
    refine ⟨hh', hc', hb', ?_, ?_, ?_, ?_⟩
    · unfold sorted_keys
      rw [hkeys]
      exact hsorted
    · intro x
      rw [hkeys]
      have h1 := IH5 x
      have h2 : x ∈ keys l → x ≠ k0 := fun hx => by have := hslk x hx; omega
      have h3 : x ∈ keys r → x ≠ k0 := fun hx => by have := hsrk x hx; omega
      have h4 : sk ≠ k0 := by omega
      simp only [keys, List.mem_append, List.mem_cons] at h1 ⊢
      constructor
      · rintro (hx | rfl | hx)
        · exact ⟨Or.inl hx, h2 hx⟩
        · exact ⟨Or.inr (Or.inr hsk_mem), h4⟩
        · exact ⟨Or.inr (Or.inr (h1.mp hx).1), h3 (h1.mp hx).1⟩
      · rintro ⟨hx | rfl | hx, hne⟩
        · exact Or.inl hx
        · exact absurd rfl hne
        · by_cases hxsk : x = sk
          · exact Or.inr (Or.inl hxsk)
          · exact Or.inr (Or.inr (h1.mpr ⟨hx, hxsk⟩))
    · rw [hsize']
      simp only [size]
      omega
    · simp only [real_height]
      omega
  · have hnoop : rebalance
        (.node sk si l r' (max (real_height l) (real_height r') + 1) a b) =
        .node sk si l r' (max (real_height l) (real_height r') + 1) a b := by
      apply rebalance_of_abs_lt_two
      · rw [get_balance_eq hhl IH1]; omega
      · rw [get_balance_eq hhl IH1]; omega
    rw [hnoop]
    refine ⟨heights_ok_node.mpr ⟨rfl, hhl, IH1⟩,
      counters_ok_node.mpr ⟨ha, hbb, hcl, IH2⟩,
      balanced_node.mpr ⟨⟨by omega, by omega⟩, hbl, IH3⟩,
      hsorted, ?_, ?_, ?_⟩
    · intro x
      have h1 := IH5 x
      have h2 : x ∈ keys l → x ≠ k0 := fun hx => by have := hslk x hx; omega
      have h3 : x ∈ keys r → x ≠ k0 := fun hx => by have := hsrk x hx; omega
      have h4 : sk ≠ k0 := by omega
      simp only [keys, List.mem_append, List.mem_cons] at h1 ⊢
      constructor
      · rintro (hx | rfl | hx)
        · exact ⟨Or.inl hx, h2 hx⟩
        · exact ⟨Or.inr (Or.inr hsk_mem), h4⟩
        · exact ⟨Or.inr (Or.inr (h1.mp hx).1), h3 (h1.mp hx).1⟩
      · rintro ⟨hx | rfl | hx, hne⟩
        · exact Or.inl hx
        · exact absurd rfl hne
        · by_cases hxsk : x = sk
          · exact Or.inr (Or.inl hxsk)
          · exact Or.inr (Or.inr (h1.mpr ⟨hx, hxsk⟩))
    · simp only [size]
      omega
    · simp only [real_height]
      omega

set_option maxHeartbeats 1600000 in
theorem delete_aux_ok (t : Tree) : ∀ key len t' len',
    heights_ok t = true → counters_ok t = true → balanced t = true → sorted_keys t →
    delete_aux t key len = .ok (t', len') →
    heights_ok t' = true ∧ counters_ok t' = true ∧ balanced t' = true ∧ sorted_keys t' ∧
    (∀ x, x ∈ keys t' ↔ x ∈ keys t ∧ x ≠ key) ∧
    size t = size t' + 1 ∧ len' = len - 1 ∧ key ∈ keys t ∧
    (real_height t' = real_height t ∨ real_height t' + 1 = real_height t) := by
  induction t with
  | lf =>
      intro key len t' len' _ _ _ _ hok
      rw [delete_aux_lf_def] at hok
      exact Except.noConfusion hok
  | node k0 i0 l r h0 lc0 rc0 ihl ihr =>
      intro key len t' len' hh hc hb hs hok
      obtain ⟨hh0, hhl, hhr⟩ := heights_ok_node.mp hh
      obtain ⟨hcl', hcr', hcl, hcr⟩ := counters_ok_node.mp hc
      obtain ⟨⟨hb1, hb2⟩, hbl, hbr⟩ := balanced_node.mp hb
      obtain ⟨hsl, hsr, hslk, hsrk⟩ := sorted_keys_node.mp hs
      by_cases hlt : key < k0
      · cases hrec : delete_aux l key len with
        | error p =>
            obtain ⟨l', len2⟩ := p
            have e : delete_aux (.node k0 i0 l r h0 lc0 rc0) key len =
                .error (.node k0 i0 l' r h0 (lc0 - 1) rc0, len2) := by
              rw [delete_aux_node_def, if_pos hlt, hrec]
            rw [e] at hok
            exact Except.noConfusion hok
        | ok p =>
            obtain ⟨l', len2⟩ := p
            have e : delete_aux (.node k0 i0 l r h0 lc0 rc0) key len =
                .ok (rebalance (update_counter (update_height
                  (.node k0 i0 l' r h0 (lc0 - 1) rc0))), len2) := by
              rw [delete_aux_node_def, if_pos hlt, hrec]
            rw [e] at hok
            obtain ⟨ht', rfl⟩ : rebalance (update_counter (update_height
                (.node k0 i0 l' r h0 (lc0 - 1) rc0))) = t' ∧ len2 = len' := by
              simpa using hok
            obtain ⟨IH1, IH2, IH3, IH4, IH5, IH6, IH7, IH9, IH8⟩ :=
              ihl key len l' len2 hhl hcl hbl hsl hrec
            subst ht'
            obtain ⟨G1, G2, G3, G4, G5, G6, G7⟩ :=
              delete_glue_left k0 i0 l l' r h0 lc0 rc0 key hhr hcr hbr hsr hslk hsrk
                hb1 hb2 IH1 IH2 IH3 IH4 IH5 IH6 IH8 hlt
            refine ⟨G1, G2, G3, G4, G5, G6, IH7, ?_, G7⟩
            simp only [keys, List.mem_append, List.mem_cons]
            exact Or.inl IH9
      · by_cases hgt : k0 < key
        · cases hrec : delete_aux r key len with
          | error p =>
              obtain ⟨r', len2⟩ := p
              have e : delete_aux (.node k0 i0 l r h0 lc0 rc0) key len =
                  .error (.node k0 i0 l r' h0 lc0 (rc0 - 1), len2) := by
                rw [delete_aux_node_def, if_neg hlt, if_pos hgt, hrec]
              rw [e] at hok
              exact Except.noConfusion hok
          | ok p =>
              obtain ⟨r', len2⟩ := p
              have e : delete_aux (.node k0 i0 l r h0 lc0 rc0) key len =
                  .ok (rebalance (update_counter (update_height
                    (.node k0 i0 l r' h0 lc0 (rc0 - 1)))), len2) := by
                rw [delete_aux_node_def, if_neg hlt, if_pos hgt, hrec]
              rw [e] at hok
              obtain ⟨ht', rfl⟩ : rebalance (update_counter (update_height
                  (.node k0 i0 l r' h0 lc0 (rc0 - 1)))) = t' ∧ len2 = len' := by
                simpa using hok
              obtain ⟨IH1, IH2, IH3, IH4, IH5, IH6, IH7, IH9, IH8⟩ :=
                ihr key len r' len2 hhr hcr hbr hsr hrec
              subst ht'
              obtain ⟨G1, G2, G3, G4, G5, G6, G7⟩ :=
                delete_glue_right k0 i0 l r r' h0 lc0 rc0 key hhl hcl hbl hsl hslk hsrk
                  hb1 hb2 IH1 IH2 IH3 IH4 IH5 IH6 IH8 hgt
              refine ⟨G1, G2, G3, G4, G5, G6, IH7, ?_, G7⟩
              simp only [keys, List.mem_append, List.mem_cons]
              exact Or.inr (Or.inr IH9)
        · have hkey : key = k0 := by omega
          subst hkey
          cases l with
          | lf =>
              cases r with
              | lf =>
                  have e : delete_aux (.node key i0 .lf .lf h0 lc0 rc0) key len =
                      .ok (.lf, len - 1) := by
                    rw [delete_aux_node_def, if_neg (lt_irrefl key), if_neg (lt_irrefl key)]
                  rw [e] at hok
                  obtain ⟨rfl, rfl⟩ : Tree.lf = t' ∧ len - 1 = len' := by simpa using hok
                  refine ⟨rfl, rfl, rfl, ?_, ?_, ?_, rfl, ?_, ?_⟩
                  · simp [sorted_keys, keys]
                  · intro x
                    constructor
                    · intro hx
                      simp [keys] at hx
                    · rintro ⟨hx, hne⟩
                      simp [keys] at hx
                      exact absurd hx hne
                  · simp [size]
                  · simp [keys]
                  · right
                    simp [real_height]
              | node rk ri rl rr rh2 rlc rrc =>
                  have e : delete_aux
                      (.node key i0 .lf (.node rk ri rl rr rh2 rlc rrc) h0 lc0 rc0) key len =
                      .ok (.node rk ri rl rr rh2 rlc rrc, len - 1) := by
                    rw [delete_aux_node_def, if_neg (lt_irrefl key), if_neg (lt_irrefl key)]
                  rw [e] at hok
                  obtain ⟨rfl, rfl⟩ : Tree.node rk ri rl rr rh2 rlc rrc = t' ∧ len - 1 = len' := by
                    simpa using hok
                  refine ⟨hhr, hcr, hbr, hsr, ?_, ?_, rfl, ?_, ?_⟩
                  · intro x
                    have h2 : x ∈ keys (.node rk ri rl rr rh2 rlc rrc) → x ≠ key :=
                      fun hx => by have := hsrk x hx; omega
                    simp only [keys, List.mem_append, List.mem_cons, List.not_mem_nil,
                      false_or] at h2 ⊢
                    constructor
                    · intro hx
                      exact ⟨Or.inr hx, h2 hx⟩
                    · rintro ⟨rfl | hx, hne⟩
                      · exact absurd rfl hne
                      · exact hx
                  · simp [size]
                  · simp [keys]
                  · right
                    have n1 := real_height_nonneg rl
                    have n2 := real_height_nonneg rr
                    simp only [real_height]
                    omega
          | node lk li ll lr lh llc lrc =>
              cases r with
              | lf =>
                  have e : delete_aux
                      (.node key i0 (.node lk li ll lr lh llc lrc) .lf h0 lc0 rc0) key len =
                      .ok (.node lk li ll lr lh llc lrc, len - 1) := by
                    rw [delete_aux_node_def, if_neg (lt_irrefl key), if_neg (lt_irrefl key)]
                  rw [e] at hok
                  obtain ⟨rfl, rfl⟩ : Tree.node lk li ll lr lh llc lrc = t' ∧ len - 1 = len' := by
                    simpa using hok
                  refine ⟨hhl, hcl, hbl, hsl, ?_, ?_, rfl, ?_, ?_⟩
                  · intro x
                    have h2 : x ∈ keys (.node lk li ll lr lh llc lrc) → x ≠ key :=
                      fun hx => by have := hslk x hx; omega
                    simp only [keys, List.mem_append, List.mem_cons, List.not_mem_nil,
                      or_false] at h2 ⊢
                    constructor
                    · intro hx
                      exact ⟨Or.inl hx, h2 hx⟩
                    · rintro ⟨hx | rfl, hne⟩
                      · exact hx
                      · exact absurd rfl hne
                  · simp [size]
                  · simp [keys]
                  · right
                    have n1 := real_height_nonneg ll
                    have n2 := real_height_nonneg lr
                    simp only [real_height]
                    omega
              | node rk ri rl rr rh2 rlc rrc =>
                  obtain ⟨rest, hrk⟩ :=
                    leftmost_keys (.node rk ri rl rr rh2 rlc rrc) (by simp)
                  cases hrec : delete_aux (.node rk ri rl rr rh2 rlc rrc)
                      (leftmost (.node rk ri rl rr rh2 rlc rrc)).key len with
                  | error p =>
                      obtain ⟨r', len2⟩ := p
                      have e : delete_aux (.node key i0 (.node lk li ll lr lh llc lrc)
                          (.node rk ri rl rr rh2 rlc rrc) h0 lc0 rc0) key len =
                          .error (.node (leftmost (.node rk ri rl rr rh2 rlc rrc)).key
                            (leftmost (.node rk ri rl rr rh2 rlc rrc)).item
                            (.node lk li ll lr lh llc lrc) r' h0 lc0 rc0, len2) := by
                        rw [delete_aux_node_def, if_neg (lt_irrefl key), if_neg (lt_irrefl key)]
                        simp only [hrec]
                      rw [e] at hok
                      exact Except.noConfusion hok
                  | ok p =>
                      obtain ⟨r', len2⟩ := p
                      have e : delete_aux (.node key i0 (.node lk li ll lr lh llc lrc)
                          (.node rk ri rl rr rh2 rlc rrc) h0 lc0 rc0) key len =
                          .ok (rebalance (update_counter (update_height
                            (.node (leftmost (.node rk ri rl rr rh2 rlc rrc)).key
                              (leftmost (.node rk ri rl rr rh2 rlc rrc)).item
                              (.node lk li ll lr lh llc lrc) r' h0 lc0 rc0))), len2) := by
                        rw [delete_aux_node_def, if_neg (lt_irrefl key), if_neg (lt_irrefl key)]
                        simp only [hrec]
                      rw [e] at hok
                      obtain ⟨ht', rfl⟩ : rebalance (update_counter (update_height
                          (.node (leftmost (.node rk ri rl rr rh2 rlc rrc)).key
                            (leftmost (.node rk ri rl rr rh2 rlc rrc)).item
                            (.node lk li ll lr lh llc lrc) r' h0 lc0 rc0))) = t' ∧
                          len2 = len' := by
                        simpa using hok
                      obtain ⟨IH1, IH2, IH3, IH4, IH5, IH6, IH7, IH9, IH8⟩ :=
                        ihr (leftmost (.node rk ri rl rr rh2 rlc rrc)).key len r' len2
                          hhr hcr hbr hsr hrec
                      subst ht'
                      obtain ⟨G1, G2, G3, G4, G5, G6, G7⟩ :=
                        delete_glue_succ key i0 (.node lk li ll lr lh llc lrc)
                          (.node rk ri rl rr rh2 rlc rrc) r' h0 lc0 rc0
                          (leftmost (.node rk ri rl rr rh2 rlc rrc)).key
                          (leftmost (.node rk ri rl rr rh2 rlc rrc)).item rest
                          hhl hcl hbl hsl hsr hslk hsrk hb1 hb2 hrk
                          IH1 IH2 IH3 IH4 IH5 IH6 IH8
                      refine ⟨G1, G2, G3, G4, G5, G6, IH7, ?_, G7⟩
                      simp [keys]


/-! ## The order-statistic query -/

theorem kth_largest_helper_node_def (nk ni : Int) (l r : Tree) (h lc rc k : Int) :
    kth_largest_helper (.node nk ni l r h lc rc) k =
      (if k = get_right_counter (.node nk ni l r h lc rc) + 1 then .node nk ni l r h lc rc
      else if k < get_right_counter (.node nk ni l r h lc rc) + 1 then
        match r with
        | .lf => .node nk ni l r h lc rc
        | .node _ _ _ _ _ _ _ => kth_largest_helper r k
      else
        match l with
        | .lf => .node nk ni l r h lc rc
        | .node _ _ _ _ _ _ _ => kth_largest_helper l (k - rc - 1)) := rfl

theorem kth_helper_singleton (x xi hh ll rr k : Int) :
    kth_largest_helper (.node x xi .lf .lf hh ll rr) k = .node x xi .lf .lf hh ll rr := by
  rw [kth_largest_helper_node_def]
  have hgr : get_right_counter (.node x xi .lf .lf hh ll rr) = 0 := rfl
  rw [hgr]
  split_ifs <;> rfl

set_option maxHeartbeats 1600000 in
theorem kth_helper_correct (t : Tree) : ∀ k : Int,
    heights_ok t = true → counters_ok t = true → balanced t = true → sorted_keys t →
    1 ≤ k → k.toNat ≤ (keys t).length →
    (keys t).reverse[k.toNat - 1]? = some (kth_largest_helper t k).key := by
  induction t with
  | lf =>
      intro k _ _ _ _ h1 h2
      simp only [keys, List.length_nil] at h2
      omega
  | node k0 i0 l r h0 lc0 rc0 ihl ihr =>
      intro k hh hc hb hs h1 h2
      obtain ⟨hh0, hhl, hhr⟩ := heights_ok_node.mp hh
      obtain ⟨hcl', hcr', hcl, hcr⟩ := counters_ok_node.mp hc
      obtain ⟨⟨hb1, hb2⟩, hbl, hbr⟩ := balanced_node.mp hb
      obtain ⟨hsl, hsr, hslk, hsrk⟩ := sorted_keys_node.mp hs
      have hgr : get_right_counter (.node k0 i0 l r h0 lc0 rc0) = (size r : Int) :=
        get_right_counter_eq hc
      have hszl := size_eq_keys_length l
      have hszr := size_eq_keys_length r
      have hkeys : keys (.node k0 i0 l r h0 lc0 rc0) = keys l ++ k0 :: keys r := rfl
      have hlen : (keys (.node k0 i0 l r h0 lc0 rc0)).length =
          (keys l).length + (keys r).length + 1 := by
        rw [hkeys]; simp; omega
      have hrev : (keys (.node k0 i0 l r h0 lc0 rc0)).reverse =
          ((keys r).reverse ++ [k0]) ++ (keys l).reverse := by
        rw [hkeys]; simp
      rw [kth_largest_helper_node_def, hgr, hrev]
      by_cases hA : k = (size r : Int) + 1
      · rw [if_pos hA]
        have hj : k.toNat - 1 = ((keys r).reverse).length := by simp; omega
        rw [List.getElem?_append_left (by simp; omega), hj,
          List.getElem?_append_right (le_refl _)]
        simp [key]
      · rw [if_neg hA]
        by_cases hB : k < (size r : Int) + 1
        · rw [if_pos hB]
          have hszr1 : 1 ≤ size r := by omega
          cases r with
          | lf => simp [size] at hszr1
          | node rk ri rl rr rh2 rlc rrc =>
              have hrec := ihr k hhr hcr hbr hsr h1 (by omega)
              rw [List.getElem?_append_left (by simp [List.length_append]; omega),
                List.getElem?_append_left (by simp; omega)]
              exact hrec
        · rw [if_neg hB]
          have hkgt : (size r : Int) + 1 < k := by omega
          cases l with
          | lf =>
              exfalso
              rw [hlen] at h2
              simp only [keys, List.length_nil] at h2
              omega
          | node lk li ll lr lh llc lrc =>
              cases r with
              | lf =>
                  -- stale stored counter possible: the left subtree is a single
                  -- node by the balance bound, and the helper returns it for
                  -- any rank
                  have hrhl : real_height (.node lk li ll lr lh llc lrc) ≤ 1 := by
                    have := real_height_nonneg (Tree.lf)
                    simp only [real_height] at hb1 hb2 ⊢
                    omega
                  have hll : ll = .lf := by
                    apply real_height_eq_zero
                    have n1 := real_height_nonneg ll
                    have n2 := real_height_nonneg lr
                    simp only [real_height] at hrhl
                    omega
                  have hlr : lr = .lf := by
                    apply real_height_eq_zero
                    have n1 := real_height_nonneg ll
                    have n2 := real_height_nonneg lr
                    simp only [real_height] at hrhl
                    omega
                  subst hll hlr
                  rw [kth_helper_singleton]
                  have hk2 : k = 2 := by
                    rw [hlen] at h2
                    simp only [keys, List.length_nil, List.length_append,
                      List.length_cons, size] at h2 hkgt ⊢
                    omega
                  subst hk2
                  simp [keys, key]
              | node rk ri rl rr rh2 rlc rrc =>
                  have hrc : rc0 = (size (.node rk ri rl rr rh2 rlc rrc) : Int) := by
                    rcases hcr' with h | h
                    · exact absurd h (by simp)
                    · exact h
                  have hrec := ihl (k - rc0 - 1) hhl hcl hbl hsl (by
                      rw [hrc]
                      omega)
                    (by
                      rw [hlen] at h2
                      rw [hrc]
                      omega)
                  rw [List.getElem?_append_right (by simp [List.length_append]; omega)]
                  have hidx : k.toNat - 1 - ((keys (.node rk ri rl rr rh2 rlc rrc)).reverse ++ [k0]).length =
                      (k - rc0 - 1).toNat - 1 := by
                    simp only [List.length_append, List.length_reverse,
                      List.length_cons, List.length_nil]
                    rw [hrc]
                    omega
                  rw [hidx]
                  exact hrec

end

end Tree

/-- Every successful public insert preserves the data-structure invariant. -/
theorem insert_invariant {t t' : AVLTree} {k i : Int} (hinv : Invariant t)
    (hok : t.insert k i = .ok t') : Invariant t' := by
  obtain ⟨h1, h2, h3, h4, h5⟩ := hinv
  unfold AVLTree.insert at hok
  cases hrec : Tree.insert_aux t.root k i t.length with
  | error p => rw [hrec] at hok; exact Except.noConfusion hok
  | ok p =>
      obtain ⟨root', len'⟩ := p
      rw [hrec] at hok
      obtain rfl : AVLTree.mk root' len' = t' := by simpa using hok
      obtain ⟨G1, G2, G3, G4, _, G6, G7, _⟩ :=
        Tree.insert_aux_ok t.root k i t.length root' len' h1 h2 h3 h4 hrec
      exact ⟨G1, G2, G3, G4, by rw [G7, G6, h5]; push_cast; ring⟩

/-- Every successful public delete preserves the data-structure invariant. -/
theorem delete_invariant {t t' : AVLTree} {k : Int} (hinv : Invariant t)
    (hok : t.delete k = .ok t') : Invariant t' := by
  obtain ⟨h1, h2, h3, h4, h5⟩ := hinv
  unfold AVLTree.delete at hok
  cases hrec : Tree.delete_aux t.root k t.length with
  | error p => rw [hrec] at hok; exact Except.noConfusion hok
  | ok p =>
      obtain ⟨root', len'⟩ := p
      rw [hrec] at hok
      obtain rfl : AVLTree.mk root' len' = t' := by simpa using hok
      obtain ⟨G1, G2, G3, G4, _, G6, G7, _, _⟩ :=
        Tree.delete_aux_ok t.root k t.length root' len' h1 h2 h3 h4 hrec
      refine ⟨G1, G2, G3, G4, ?_⟩
      show len' = (root'.size : Int)
      rw [G7, h5]
      omega

/-- Every reachable tree object satisfies the data-structure invariant. -/
theorem reachable_invariant {t : AVLTree} (h : Reachable t) : Invariant t := by
  induction h with
  | empty =>
      refine ⟨rfl, rfl, rfl, ?_, rfl⟩
      simp [Tree.sorted_keys, Tree.keys, AVLTree.empty]
  | insert_step _ hok ih => exact insert_invariant ih hok
  | delete_step _ hok ih => exact delete_invariant ih hok

open Tree

theorem kth_rank_rule_node_def (nk ni : Int) (l r : Tree) (h lc rc k : Int) :
    kth_rank_rule (.node nk ni l r h lc rc) k =
      (if k = get_right_counter (.node nk ni l r h lc rc) + 1 then .node nk ni l r h lc rc
      else if k < get_right_counter (.node nk ni l r h lc rc) + 1 then
        match r with
        | .lf => .node nk ni l r h lc rc
        | .node _ _ _ _ _ _ _ => kth_rank_rule r k
      else
        match l with
        | .lf => .node nk ni l r h lc rc
        | .node _ _ _ _ _ _ _ =>
            kth_rank_rule l (k - (get_right_counter (.node nk ni l r h lc rc) + 1))) := rfl

/-- On a tree whose stored counters are exact the source descent and the
spec's rank rule agree, because the raw `right_counter` subtracted by the
source equals `get_right_counter` (both are the right subtree's size). -/
theorem kth_rank_rule_eq (t : Tree) : ∀ k : Int, counters_exact t = true →
    kth_largest_helper t k = kth_rank_rule t k := by
  induction t with
  | lf =>
      intro k _
      show (if k = get_right_counter Tree.lf + 1 then Tree.lf else Tree.lf) = Tree.lf
      split <;> rfl
  | node nk ni l r h lc rc ihl ihr =>
      intro k hex
      obtain ⟨hlc, hrc, hexl, hexr⟩ := counters_exact_node.mp hex
      have hgr : get_right_counter (.node nk ni l r h lc rc) = rc := by
        cases r with
        | lf =>
            have : (size Tree.lf : Int) = 0 := by simp [size]
            rw [hrc, this]
            rfl
        | node _ _ _ _ _ _ _ => rfl
      rw [kth_largest_helper_node_def, kth_rank_rule_node_def, hgr]
      by_cases h1 : k = rc + 1
      · rw [if_pos h1, if_pos h1]
      · rw [if_neg h1, if_neg h1]
        by_cases h2 : k < rc + 1
        · rw [if_pos h2, if_pos h2]
          cases r with
          | lf => rfl
          | node _ _ _ _ _ _ _ => exact ihr k hexr
        · rw [if_neg h2, if_neg h2]
          cases l with
          | lf => rfl
          | node _ _ _ _ _ _ _ =>
              have harith : k - rc - 1 = k - (rc + 1) := by ring
              rw [harith]
              exact ihl (k - (rc + 1)) hexl

/-! ## Concrete evaluations: inserting 1, 2, 3 into the empty tree -/

theorem insert_step_1 : AVLTree.empty.insert 1 0 = .ok exTree1 := rfl

theorem insert_step_2 : exTree1.insert 2 0 = .ok exTree2 := rfl

theorem insert_step_3 : exTree2.insert 3 0 = .ok exTree3 := rfl

theorem reachable_exTree3 : Reachable exTree3 :=
  Reachable.insert_step
    (Reachable.insert_step (Reachable.insert_step Reachable.empty insert_step_1)
      insert_step_2)
    insert_step_3

theorem emod_add_one_bounds (m k : Int) (hk : 1 ≤ k) :
    1 ≤ m % k + 1 ∧ m % k + 1 ≤ k := by
  have h1 := Int.emod_nonneg m (by omega : k ≠ 0)
  have h2 := Int.emod_lt_of_pos m (by omega : 0 < k)
  omega

/-! ## The claims -/

/-- C1: for every tree state reachable from the empty tree by a sequence of
successful insert and delete operations, holding n keys, and for every k with
1 ≤ k ≤ n, `kth_largest k` returns the node whose key is exactly the k-th
largest among all keys currently in the tree — the entry at position k − 1 of
the descending-sorted key sequence. -/
theorem C1_kth_largest_correct (t : AVLTree) (hr : Reachable t) (k : Int)
    (h1 : 1 ≤ k) (h2 : k.toNat ≤ t.root.size) :
    (keys t.root).reverse[k.toNat - 1]? = some (t.kth_largest k).key := by
  obtain ⟨hh, hc, hb, hs, _⟩ := reachable_invariant hr
  exact kth_helper_correct t.root k hh hc hb hs h1
    (by rw [← size_eq_keys_length]; exact h2)

theorem C1_witness :
    1 ≤ (1 : Int) ∧ (1 : Int).toNat ≤ exTree3.root.size ∧
    (keys exTree3.root).reverse[(1 : Int).toNat - 1]? = some (exTree3.kth_largest 1).key :=
  ⟨by decide, by decide,
   C1_kth_largest_correct exTree3 reachable_exTree3 1 (by decide) (by decide)⟩

/-- C2 is false as stated: in the reachable state `exTree3` (inserting 1, 2, 3
into the empty tree) the node with key 1 has an absent right child but stored
`right_counter = 2` — `update_counter` never writes a counter for an absent
child, so the stored field is stale rather than 0. -/
theorem C2_counterexample :
    Reachable exTree3 ∧ exTree3.root.counters_exact = false ∧
    exTree3.root = .node 2 0 (.node 1 0 .lf .lf 1 0 2) (.node 3 0 .lf .lf 1 0 0) 2 1 1 :=
  ⟨reachable_exTree3, by decide, rfl⟩

/-- C2 (amended): after every public operation, each node's stored counter
for a PRESENT child equals the true node count of that child's subtree (so
the effective counts read through the getters — 0 for an absent child — are
always the true subtree sizes), and the tree-wide `length` equals the total
number of nodes reachable from the root. -/
theorem C2_amended_counters (t : AVLTree) (hr : Reachable t) :
    t.root.counters_ok = true ∧ t.length = (t.root.size : Int) := by
  obtain ⟨_, hc, _, _, hl⟩ := reachable_invariant hr
  exact ⟨hc, hl⟩

theorem C2_amended_witness :
    exTree3.root.counters_ok = true ∧ exTree3.length = (exTree3.root.size : Int) :=
  C2_amended_counters exTree3 reachable_exTree3

/-- C3: the code at the failing input.  Key 4 is absent from the reachable
tree {1, 2, 3}; `delete 4` raises the key-not-found error, but the
`right_counter -= 1` statements executed on the way down survive the
exception, so the tree is NOT left unchanged: the root's `right_counter`
drops 1 → 0 and node 3's drops 0 → −1, after which `kth_largest 1` returns
the root key 2 instead of the true maximum 3. -/
theorem C3_delete_absent_mutates :
    (4 : Int) ∉ keys exTree3.root ∧
    exTree3.delete 4 = .error exTree3bad ∧
    exTree3bad ≠ exTree3 ∧
    Reachable exTree3 ∧
    (exTree3.kth_largest 1).key = 3 ∧ (exTree3bad.kth_largest 1).key = 2 :=
  ⟨by decide, rfl, by decide, reachable_exTree3, rfl, rfl⟩

/-- C4 is false as stated: on `staleTree` (heights correct, keys strictly
ordered, three keys 5 < 6 < 10, but node 10 stores `right_counter = 1` with
its right child absent) the source descent at rank 3 recurses left with
k − stored − 1 = 1 instead of the rule's k − r = 2, and returns key 6 where
the spec's rank rule returns key 5. -/
theorem C4_counterexample :
    staleTree.heights_ok = true ∧ staleTree.sorted_keys ∧ staleTree.size = 3 ∧
    (kth_largest_helper staleTree 3).key = 6 ∧ (kth_rank_rule staleTree 3).key = 5 ∧
    kth_largest_helper staleTree 3 ≠ kth_rank_rule staleTree 3 :=
  ⟨by decide, by decide, by decide, rfl, rfl, by decide⟩

/-- C4 (amended): the descent recurses left with adjusted rank
k − stored right_counter − 1, which coincides with the spec's k − r whenever
the right child is present; consequently, on every tree whose stored counters
are exact (equal to the true subtree size, 0 when the child is absent), the
descent agrees with the spec's rank rule at every step and computes the same
node for every rank. -/
theorem C4_amended_rank_rule (t : Tree) (hex : t.counters_exact = true) (k : Int) :
    kth_largest_helper t k = kth_rank_rule t k :=
  kth_rank_rule_eq t k hex

theorem C4_amended_witness :
    exactTree.counters_exact = true ∧
    kth_largest_helper exactTree 2 = kth_rank_rule exactTree 2 :=
  ⟨by decide, C4_amended_rank_rule exactTree (by decide) 2⟩

/-- C5: after every successful insert and every successful delete (i.e. in
every reachable state), every node satisfies the AVL balance bound
|height(right) − height(left)| ≤ 1, and every stored height equals
1 + max of the children's heights (0 for an absent subtree). -/
theorem C5_balance_invariant (t : AVLTree) (hr : Reachable t) :
    t.root.balanced = true ∧ t.root.heights_ok = true := by
  obtain ⟨hh, _, hb, _, _⟩ := reachable_invariant hr
  exact ⟨hb, hh⟩

theorem C5_witness :
    exTree3.root.balanced = true ∧ exTree3.root.heights_ok = true :=
  C5_balance_invariant exTree3 reachable_exTree3

/-- C6: for every tree (with the binary-search ordering every state of the
structure maintains) and every key already present in it, insert fails with
the duplicate-key error and leaves the tree completely unchanged — the
post-exception state is exactly the input tree (same key set, shape, heights,
counters and size). -/
theorem C6_duplicate_insert (t : AVLTree) (key item : Int)
    (hs : t.root.sorted_keys) (hmem : key ∈ keys t.root) :
    t.insert key item = .error t := by
  unfold AVLTree.insert
  rw [insert_aux_err t.root key item t.length hs hmem]

theorem C6_witness :
    exTree3.root.sorted_keys ∧ (2 : Int) ∈ keys exTree3.root ∧
    exTree3.insert 2 99 = .error exTree3 :=
  ⟨by decide, by decide, C6_duplicate_insert exTree3 2 99 (by decide) (by decide)⟩

/-- C7's rotation rider is false as stated: a single node satisfies the BST
ordering, yet `left_rotate` applied to it falls off the guarded branch and
returns `None`, so the in-order key sequence is not preserved (it becomes
empty). -/
theorem C7_counterexample :
    Tree.sorted_keys (.node 1 0 .lf .lf 1 0 0) ∧
    keys (left_rotate (.node 1 0 .lf .lf 1 0 0)) ≠ keys (.node 1 0 .lf .lf 1 0 0) :=
  ⟨by decide, by decide⟩

/-- C7 (amended): in every reachable state the in-order traversal yields
strictly increasing keys; and a single `left_rotate` (resp. `right_rotate`)
applied to a subtree satisfying the BST ordering WHOSE RIGHT (resp. LEFT)
CHILD IS PRESENT yields a subtree with the same in-order key sequence. -/
theorem C7_amended_bst_rotations :
    (∀ t : AVLTree, Reachable t → (keys t.root).Chain' (· < ·)) ∧
    (∀ (k i : Int) (l : Tree) (ck ci : Int) (cl cr : Tree) (ch clc crc h lc rc : Int),
      Tree.sorted_keys (.node k i l (.node ck ci cl cr ch clc crc) h lc rc) →
      keys (left_rotate (.node k i l (.node ck ci cl cr ch clc crc) h lc rc)) =
        keys (.node k i l (.node ck ci cl cr ch clc crc) h lc rc)) ∧
    (∀ (k i ck ci : Int) (cl cr r : Tree) (ch clc crc h lc rc : Int),
      Tree.sorted_keys (.node k i (.node ck ci cl cr ch clc crc) r h lc rc) →
      keys (right_rotate (.node k i (.node ck ci cl cr ch clc crc) r h lc rc)) =
        keys (.node k i (.node ck ci cl cr ch clc crc) r h lc rc)) := by
  refine ⟨?_, ?_, ?_⟩
  · intro t hr
    exact List.chain'_iff_pairwise.mpr (reachable_invariant hr).2.2.2.1
  · intro k i l ck ci cl cr ch clc crc h lc rc _
    exact left_rotate_keys k i l ck ci cl cr ch clc crc h lc rc
  · intro k i ck ci cl cr r ch clc crc h lc rc _
    exact right_rotate_keys k i ck ci cl cr r ch clc crc h lc rc

theorem C7_witness :
    (keys exTree3.root).Chain' (· < ·) ∧
    keys (left_rotate (.node 1 0 .lf (.node 2 0 .lf .lf 1 0 0) 2 0 1)) =
      keys (.node 1 0 .lf (.node 2 0 .lf .lf 1 0 0) 2 0 1) :=
  ⟨C7_amended_bst_rotations.1 exTree3 reachable_exTree3,
   C7_amended_bst_rotations.2.1 1 0 .lf 2 0 .lf .lf 1 0 0 2 0 1 (by decide)⟩

/-- C8: on a node with correct stored heights, `rebalance` performs exactly
the spec's case split: balance ≥ 2 — if the right child's left subtree is
taller than its right subtree, first right-rotate the right child, then
left-rotate the node, otherwise a single left rotation; balance ≤ −2 is the
exact mirror; and for −2 < balance < 2 it returns the node unchanged. -/
theorem C8_rebalance_cases (k i : Int) (l r : Tree) (h lc rc : Int)
    (hh : heights_ok (.node k i l r h lc rc) = true) :
    (2 ≤ get_balance (.node k i l r h lc rc) →
      r ≠ .lf ∧
      rebalance (.node k i l r h lc rc) =
        (if get_height (left_of r) > get_height (right_of r) then
          left_rotate (.node k i l (right_rotate r) h lc rc)
        else left_rotate (.node k i l r h lc rc))) ∧
    (get_balance (.node k i l r h lc rc) ≤ -2 →
      l ≠ .lf ∧
      rebalance (.node k i l r h lc rc) =
        (if get_height (right_of l) > get_height (left_of l) then
          right_rotate (.node k i (left_rotate l) r h lc rc)
        else right_rotate (.node k i l r h lc rc))) ∧
    (-2 < get_balance (.node k i l r h lc rc) →
      get_balance (.node k i l r h lc rc) < 2 →
      rebalance (.node k i l r h lc rc) = .node k i l r h lc rc) :=
  rebalance_case_split k i l r h lc rc hh

theorem C8_witness :
    heights_ok (.node 1 0 .lf (.node 2 0 .lf (.node 3 0 .lf .lf 1 0 0) 2 0 1) 3 0 2) = true ∧
    2 ≤ get_balance (.node 1 0 .lf (.node 2 0 .lf (.node 3 0 .lf .lf 1 0 0) 2 0 1) 3 0 2) ∧
    ((.node 2 0 .lf (.node 3 0 .lf .lf 1 0 0) 2 0 1) ≠ Tree.lf ∧
      rebalance (.node 1 0 .lf (.node 2 0 .lf (.node 3 0 .lf .lf 1 0 0) 2 0 1) 3 0 2) =
        (if get_height (left_of (.node 2 0 .lf (.node 3 0 .lf .lf 1 0 0) 2 0 1)) >
            get_height (right_of (.node 2 0 .lf (.node 3 0 .lf .lf 1 0 0) 2 0 1)) then
          left_rotate (.node 1 0 .lf
            (right_rotate (.node 2 0 .lf (.node 3 0 .lf .lf 1 0 0) 2 0 1)) 3 0 2)
        else
          left_rotate (.node 1 0 .lf (.node 2 0 .lf (.node 3 0 .lf .lf 1 0 0) 2 0 1) 3 0 2))) :=
  ⟨by decide, by decide,
   (C8_rebalance_cases 1 0 .lf (.node 2 0 .lf (.node 3 0 .lf .lf 1 0 0) 2 0 1) 3 0 2
     (by decide)).1 (by decide)⟩

/-- C9: on a node with correct stored heights and balance factor ≥ 2 (resp.
≤ −2) the right (resp. left) child is present, each rotation performed in
that branch takes its guarded arm and returns an actual node, and `rebalance`
itself never returns the `None` fall-through. -/
theorem C9_rotation_safety (k i : Int) (l r : Tree) (h lc rc : Int)
    (hh : heights_ok (.node k i l r h lc rc) = true) :
    (2 ≤ get_balance (.node k i l r h lc rc) →
      r ≠ .lf ∧
      (get_height (left_of r) > get_height (right_of r) →
        right_rotate r ≠ .lf ∧
        left_rotate (.node k i l (right_rotate r) h lc rc) ≠ .lf) ∧
      (¬ get_height (left_of r) > get_height (right_of r) →
        left_rotate (.node k i l r h lc rc) ≠ .lf) ∧
      rebalance (.node k i l r h lc rc) ≠ .lf) ∧
    (get_balance (.node k i l r h lc rc) ≤ -2 →
      l ≠ .lf ∧
      (get_height (right_of l) > get_height (left_of l) →
        left_rotate l ≠ .lf ∧
        right_rotate (.node k i (left_rotate l) r h lc rc) ≠ .lf) ∧
      (¬ get_height (right_of l) > get_height (left_of l) →
        right_rotate (.node k i l r h lc rc) ≠ .lf) ∧
      rebalance (.node k i l r h lc rc) ≠ .lf) :=
  rotation_safety k i l r h lc rc hh

theorem C9_witness :
    heights_ok (.node 1 0 .lf (.node 2 0 .lf (.node 3 0 .lf .lf 1 0 0) 2 0 1) 3 0 2) = true ∧
    2 ≤ get_balance (.node 1 0 .lf (.node 2 0 .lf (.node 3 0 .lf .lf 1 0 0) 2 0 1) 3 0 2) ∧
    ((.node 2 0 .lf (.node 3 0 .lf .lf 1 0 0) 2 0 1) ≠ Tree.lf ∧
      (get_height (left_of (.node 2 0 .lf (.node 3 0 .lf .lf 1 0 0) 2 0 1)) >
          get_height (right_of (.node 2 0 .lf (.node 3 0 .lf .lf 1 0 0) 2 0 1)) →
        right_rotate (.node 2 0 .lf (.node 3 0 .lf .lf 1 0 0) 2 0 1) ≠ .lf ∧
        left_rotate (.node 1 0 .lf
          (right_rotate (.node 2 0 .lf (.node 3 0 .lf .lf 1 0 0) 2 0 1)) 3 0 2) ≠ .lf) ∧
      (¬ get_height (left_of (.node 2 0 .lf (.node 3 0 .lf .lf 1 0 0) 2 0 1)) >
          get_height (right_of (.node 2 0 .lf (.node 3 0 .lf .lf 1 0 0) 2 0 1)) →
        left_rotate (.node 1 0 .lf (.node 2 0 .lf (.node 3 0 .lf .lf 1 0 0) 2 0 1) 3 0 2)
          ≠ .lf) ∧
      rebalance (.node 1 0 .lf (.node 2 0 .lf (.node 3 0 .lf .lf 1 0 0) 2 0 1) 3 0 2)
        ≠ .lf) :=
  ⟨by decide, by decide,
   (C9_rotation_safety 1 0 .lf (.node 2 0 .lf (.node 3 0 .lf .lf 1 0 0) 2 0 1) 3 0 2
     (by decide)).1 (by decide)⟩

/-- C10: for every integer k ≥ 1 and every internal generator state,
`randint k` returns an integer in the closed range [1, k] (together with the
advanced generator state), and it raises an error when k = 0. -/
theorem C10_randint_range (s : Nat) (k : Int) :
    (1 ≤ k → ∃ v s2, RandomGen.randint s k = .ok (v, s2) ∧ 1 ≤ v ∧ v ≤ k) ∧
    RandomGen.randint s 0 = .error () := by
  constructor
  · intro hk
    refine ⟨(RandomGen.majority16 [RandomGen.lcg_next s,
        RandomGen.lcg_next (RandomGen.lcg_next s),
        RandomGen.lcg_next (RandomGen.lcg_next (RandomGen.lcg_next s)),
        RandomGen.lcg_next (RandomGen.lcg_next (RandomGen.lcg_next (RandomGen.lcg_next s))),
        RandomGen.lcg_next (RandomGen.lcg_next (RandomGen.lcg_next (RandomGen.lcg_next
          (RandomGen.lcg_next s))))] : Int) % k + 1,
      RandomGen.lcg_next (RandomGen.lcg_next (RandomGen.lcg_next (RandomGen.lcg_next
        (RandomGen.lcg_next s)))), ?_, ?_, ?_⟩
    · unfold RandomGen.randint
      rw [if_neg (by omega)]
    · exact (emod_add_one_bounds _ k hk).1
    · exact (emod_add_one_bounds _ k hk).2
  · unfold RandomGen.randint
    rw [if_pos rfl]

theorem C10_witness :
    (∃ v s2, RandomGen.randint 0 4 = .ok (v, s2) ∧ 1 ≤ v ∧ v ≤ 4) ∧
    RandomGen.randint 0 0 = .error () ∧
    RandomGen.randint 0 4 = .ok (1, 1172187917) :=
  ⟨(C10_randint_range 0 4).1 (by decide), (C10_randint_range 0 0).2, rfl⟩

end PotionTrader
